import Mathlib

/-
  Shallow embedding of the metaopts optimization engine
  (src/metaopts/algorithms/avoa.py and src/metaopts/algorithms/stbo.py).

  Tensors are modelled as nested lists of rationals:
    * a parameter tensor ("slot") is flattened to a `List ℚ`;
    * a population is stored per slot, as in the source, where each slot
      holds the stacked per-individual arrays: `Pop = List (List Slot)`
      (outer index: weight slot, middle: individual, inner: flat element).
  Random draws and the transcendental functions evaluated by TensorFlow
  (sin, cos, fractional powers, the Levy sigma constant) are supplied as
  explicit inputs, so every run of the model is a concrete computable
  function of its draw streams.  Rational division follows Lean's
  `q / 0 = 0` convention; the division-hazard claim (C4) is therefore
  settled by reasoning about the divisor expressions themselves, never
  about the value of a division at a zero divisor.
-/

namespace Metaopts

abbrev Slot := List ℚ

abbrev Candidate := List Slot

abbrev Pop := List (List Slot)

/-- Element access inside a candidate: slot `s`, flat element `e`. -/
def elemv (c : Candidate) (s e : ℕ) : ℚ :=
  ((c.getD s []).getD e 0)

/-- Element access inside a population: slot `s`, individual `i`, element `e`. -/
def pelem (X : Pop) (s i e : ℕ) : ℚ :=
  (((X.getD s []).getD i []).getD e 0)

/-- Build a candidate with the same shape as `c`, value given elementwise. -/
def mapCand (c : Candidate) (f : ℕ → ℕ → ℚ) : Candidate :=
  (List.range c.length).map fun s =>
    (List.range ((c.getD s []).length)).map fun e => f s e

/-- Build a population with the same shape as `X`, value given elementwise. -/
def mapPop (X : Pop) (f : ℕ → ℕ → ℕ → ℚ) : Pop :=
  (List.range X.length).map fun s =>
    (List.range ((X.getD s []).length)).map fun i =>
      (List.range (((X.getD s []).getD i []).length)).map fun e => f s i e

/-- Per-slot list of per-individual flattened lengths. -/
def popShape (X : Pop) : List (List ℕ) :=
  X.map fun slot => slot.map List.length

def candShape (c : Candidate) : List ℕ :=
  c.map List.length

/-- Well-formedness: `shapes.length` slots, each holding `n` individuals,
individual arrays in slot `s` flattened to `shapes[s]` elements. -/
def WF (shapes : List ℕ) (n : ℕ) (X : Pop) : Prop :=
  popShape X = shapes.map fun sz => List.replicate n sz

instance (shapes : List ℕ) (n : ℕ) (X : Pop) : Decidable (WF shapes n X) := by
  unfold WF; infer_instance

/-- The `i`-th candidate of a population: gather index `i` from every slot. -/
def candidateOf (X : Pop) (i : ℕ) : Candidate :=
  X.map fun slot => slot.getD i []

/-- Overwrite individual `i` of every slot with the arrays of candidate `c`
(the in-place `p[i].assign(...)` of the source). -/
def setCand (X : Pop) (i : ℕ) (c : Candidate) : Pop :=
  (List.range X.length).map fun s => (X.getD s []).set i (c.getD s [])

/-- `update_population_fitness`: one fitness scalar per candidate, in index
order.  Modelled from the spec: the utilities collaborator materializes each
candidate and calls the external fitness function; the function itself is the
parameter `fit`. -/
def evalFitness (fit : Candidate → ℚ) (X : Pop) (n : ℕ) : List ℚ :=
  (List.range n).map fun i => fit (candidateOf X i)

/-- `tf.reduce_min` over a fitness vector (0 on the empty vector). -/
def qmin : List ℚ → ℚ
  | [] => 0
  | x :: xs => xs.foldl min x

/-- `tf.argmin`: index of the first minimum entry. -/
def argminIdx (F : List ℚ) : ℕ :=
  (List.range F.length).foldl
    (fun best j => if F.getD j 0 < F.getD best 0 then j else best) 0

/-- Stable ascending insertion used to model `tf.argsort(fitness)`:
lower fitness first, ties broken toward the lower index. -/
def insertIdx (F : List ℚ) (i : ℕ) : List ℕ → List ℕ
  | [] => [i]
  | j :: rest =>
      if F.getD j 0 < F.getD i 0 ∨ (F.getD j 0 = F.getD i 0 ∧ j ≤ i) then
        j :: insertIdx F i rest
      else
        i :: j :: rest

def argsortQ (F : List ℚ) : List ℕ :=
  (List.range F.length).foldr (insertIdx F) []

/-- `tf.clip_by_value t lo hi = min (max t lo) hi`. -/
def clipQ (lb ub v : ℚ) : ℚ :=
  min (max v lb) ub

/-- `tf.round`: round half to even. -/
def roundEven (q : ℚ) : ℤ :=
  let f := ⌊q⌋
  let r := q - f
  if r < 1/2 then f
  else if 1/2 < r then f + 1
  else if f % 2 = 0 then f else f + 1

/-- `tf.tensor_scatter_nd_update x idxs (gather instr idxs)`: positions listed
in `idxs` take the corresponding `instr` value, all others keep `x`. -/
def scatterUpd (x instr : List ℚ) (idxs : List ℕ) : List ℚ :=
  (List.range x.length).map fun j =>
    if j ∈ idxs then instr.getD j 0 else x.getD j 0

/-- Re-chunk a flat list into the per-individual lengths of `slot`
(`tf.reshape(flat, shape)`). -/
def chunkLike : List Slot → List ℚ → List Slot
  | [], _ => []
  | s :: rest, flat => flat.take s.length :: chunkLike rest (flat.drop s.length)

/-- Uniform population builder: slot sizes from `shapes`, `n` individuals,
values given elementwise. -/
def mkPop (shapes : List ℕ) (n : ℕ) (f : ℕ → ℕ → ℕ → ℚ) : Pop :=
  (List.range shapes.length).map fun s =>
    (List.range n).map fun i =>
      (List.range (shapes.getD s 0)).map fun e => f s i e

/-- Modelled from the spec: `metaopts.utilities.create_population` is not in
`src/`.  Per spec section 4.1 it returns `n` candidates, uniform-random in
`[lb, ub]` per element (value `lb + u*(ub-lb)` with `u` a fresh uniform draw),
or the current target parameter values with an independent per-candidate
perturbation when transfer learning is on, and fails only if
`population_size <= 0` or the shape list is empty.  Draw streams `initU` and
`perturb` and the target values `target` are explicit inputs. -/
def createPopulation (shapes : List ℕ) (n : ℤ) (lb ub : ℚ)
    (transfer : Bool) (initU perturb : ℕ → ℕ → ℕ → ℚ)
    (target : List Slot) : Option Pop :=
  if n ≤ 0 ∨ shapes.isEmpty then none
  else some (mkPop shapes n.toNat fun s i e =>
    if transfer then (target.getD s []).getD e 0 + perturb s i e
    else lb + initU s i e * (ub - lb))

/-- Modelled from the spec: `metaopts.utilities.apply_best_solution` is not in
`src/`.  Per spec section 6 it writes the best candidate's arrays into the
target parameter set; the engine hands it the current population, the fitness
function and the fitness vector, so the best candidate it can determine is the
population member minimizing the (re-evaluated) fitness.  Modelled as
returning that candidate. -/
def applyBestSolution (fit : Candidate → ℚ) (X : Pop) (n : ℕ) : Candidate :=
  candidateOf X (argminIdx (evalFitness fit X n))

/-- Observable outcome of one run: final population, every fitness-evaluation
pass in order, the `(generation, best_fitness)` record of each executed
generation boundary, the force flag of every in-loop fitness-log call, whether
the run-end log (with `force_file_write=True`) and run-end save happened, the
total number of save calls, and the candidate applied to the model. -/
structure RunResult where
  pop : Pop
  passes : List (List ℚ)
  bests : List (ℕ × ℚ)
  logF : List Bool
  endLog : Bool
  endSave : Bool
  saves : ℕ
  applied : Candidate
  deriving Repr, DecidableEq

instance : Inhabited RunResult :=
  ⟨⟨[], [], [], [], false, false, 0, []⟩⟩

/-- Loop accumulator threaded through the generation loop. -/
structure LoopAcc where
  pop : Pop
  passes : List (List ℚ)
  bests : List (ℕ × ℚ)
  logF : List Bool
  saves : ℕ
  deriving Repr, DecidableEq

namespace Avoa

/-- Configuration surface of `avoa` (its keyword parameters), plus the
flattened element counts of the `model_weights` slots. -/
structure Cfg where
  generation_limit : ℤ
  fitness_limit : ℚ
  population_size : ℤ
  transfer_learning : Bool
  fitness_log_frequency : ℤ
  best_individual_save_frequency : ℤ
  L1 : ℚ
  L2 : ℚ
  w : ℚ
  P1 : ℚ
  P2 : ℚ
  P3 : ℚ
  lb : ℚ
  ub : ℚ
  beta : ℚ
  shapes : List ℕ

def Cfg.N (c : Cfg) : ℕ := c.population_size.toNat

def Cfg.Tq (c : Cfg) : ℚ := (c.generation_limit : ℚ)

/-- The transcendental functions the source evaluates through TensorFlow and
`math`: elementwise sine/cosine, `t ↦ sin(π/2·t)` and `t ↦ cos(π/2·t)` (used
by eq. 3 at `t = gen/T`), `x ↦ x^w`, `x ↦ x^(1/beta)`, the `calculate_sigma()`
constant (computed in the source from `math.gamma` and `beta`), and the
constant `2π`.  They are inputs of the model: the engine's own logic never
inspects them. -/
structure RealOps where
  sinq : ℚ → ℚ
  cosq : ℚ → ℚ
  sinHalfPi : ℚ → ℚ
  cosHalfPi : ℚ → ℚ
  powW : ℚ → ℚ
  powInvBeta : ℚ → ℚ
  sigma : ℚ
  twoPi : ℚ

/-- The fresh random draws one individual's update can consume in one
generation, in source order: the categorical outcome of eq. 1, `rand_1`, `z`,
`h` of eqs. 3-4, the three branch-probability draws, the uniform behind
`X = 2*U(0,1)` of eq. 7, `rand_2 … rand_6`, and the elementwise Levy
uniforms `u`, `v` of eq. 18 (indexed slot, element). -/
structure Draws where
  sel : ℕ
  rand1 : ℚ
  zdraw : ℚ
  hdraw : ℚ
  u1 : ℚ
  u2 : ℚ
  u3 : ℚ
  x7 : ℚ
  rand2 : ℚ
  rand3 : ℚ
  rand4 : ℚ
  rand5 : ℚ
  rand6 : ℚ
  levyU : ℕ → ℕ → ℚ
  levyV : ℕ → ℕ → ℚ

structure Env where
  draws : ℕ → ℕ → Draws
  initU : ℕ → ℕ → ℕ → ℚ
  perturb : ℕ → ℕ → ℕ → ℚ
  target : List Slot

/-- `update_best_vultures`: per slot, the arrays of the two best-ranked
candidates (`tf.argsort(fitness)[:2]`, stable ascending). -/
def bestVultures (X : Pop) (F : List ℚ) : List (Slot × Slot) :=
  let idx := argsortQ F
  X.map fun slot => (slot.getD (idx.getD 0 0) [], slot.getD (idx.getD 1 0) [])

/-- Eq. 1: the reference vulture R for this individual, chosen between the two
best vultures; the categorical draw's outcome is the stream value `sel`
(0 picks the first best vulture). -/
def eq1R (bv : List (Slot × Slot)) (sel : ℕ) : Candidate :=
  bv.map fun pr => if sel = 0 then pr.1 else pr.2

/-- Eq. 3: `h * (sin(π/2·gen/T)^w + cos(π/2·gen/T) - 1)`. -/
def eq3t (O : RealOps) (hdraw gen T : ℚ) : ℚ :=
  hdraw * (O.powW (O.sinHalfPi (gen / T)) + O.cosHalfPi (gen / T) - 1)

/-- Eq. 4: `F = (2*rand_1 + 1) * z * (1 - gen/T) + t`. -/
def eq4F (O : RealOps) (d : Draws) (gen T : ℚ) : ℚ :=
  (2 * d.rand1 + 1) * d.zdraw * (1 - gen / T) + eq3t O d.hdraw gen T

/-- Eq. 7: `D = |X*R - P_i|` with `X = 2*U(0,1)` (`x7` is the uniform). -/
def eq7D (x7 : ℚ) (R p : Candidate) : Candidate :=
  mapCand p fun s e => |2 * x7 * elemv R s e - elemv p s e|

/-- Eq. 6: `P_i = R - D*F`. -/
def eq6c (F x7 : ℚ) (R p : Candidate) : Candidate :=
  let D := eq7D x7 R p
  mapCand p fun s e => elemv R s e - elemv D s e * F

/-- Eq. 8: `P_i = R - F + rand_2*((ub-lb)*rand_3 + lb)`. -/
def eq8c (F rand2 rand3 lb ub : ℚ) (R p : Candidate) : Candidate :=
  mapCand p fun s e => elemv R s e - F + rand2 * ((ub - lb) * rand3 + lb)

/-- Eq. 10 (with eq. 11's `dt = R - P_i`): `P_i = D*(F + rand_4) - dt`. -/
def eq10c (F x7 rand4 : ℚ) (R p : Candidate) : Candidate :=
  let D := eq7D x7 R p
  mapCand p fun s e => elemv D s e * (F + rand4) - (elemv R s e - elemv p s e)

/-- Eq. 12: the polar offsets `S0 = R*((rand_5*P_i)/2π)*cos(P_i)` and
`S1 = R*((rand_6*P_i)/2π)*sin(P_i)`. -/
def eq12S (O : RealOps) (rand5 rand6 : ℚ) (R p : Candidate) :
    Candidate × Candidate :=
  (mapCand p fun s e =>
      elemv R s e * ((rand5 * elemv p s e) / O.twoPi) * O.cosq (elemv p s e),
   mapCand p fun s e =>
      elemv R s e * ((rand6 * elemv p s e) / O.twoPi) * O.sinq (elemv p s e))

/-- Eq. 13: `P_i = R - (S0 + S1)`. -/
def eq13c (O : RealOps) (rand5 rand6 : ℚ) (R p : Candidate) : Candidate :=
  let S := eq12S O rand5 rand6 R p
  mapCand p fun s e => elemv R s e - (elemv S.1 s e + elemv S.2 s e)

/-- The eq. 15 denominator `bv - P_i^2`, exactly as the source computes it
(`bv - tf.pow(p[i], 2)`), with no guard. -/
def eq15den (bv pv : ℚ) : ℚ := bv - pv ^ 2

/-- Eq. 15: the two accumulation terms `A_k = bv_k - ((bv_k*P_i)/(bv_k - P_i^2))*F`. -/
def eq15A (F : ℚ) (bv0 bv1 p : Candidate) : Candidate × Candidate :=
  (mapCand p fun s e =>
      elemv bv0 s e -
        ((elemv bv0 s e * elemv p s e) /
          eq15den (elemv bv0 s e) (elemv p s e)) * F,
   mapCand p fun s e =>
      elemv bv1 s e -
        ((elemv bv1 s e * elemv p s e) /
          eq15den (elemv bv1 s e) (elemv p s e)) * F)

/-- Eq. 16: `P_i = (A0 + A1) / 2`. -/
def eq16c (F : ℚ) (bv0 bv1 p : Candidate) : Candidate :=
  let A := eq15A F bv0 bv1 p
  mapCand p fun s e => (elemv A.1 s e + elemv A.2 s e) / 2

/-- Eq. 18 (Mantegna): `Levy = 0.01 * ((u*sigma) / |v|^(1/beta))` elementwise. -/
def eq18Levy (O : RealOps) (d : Draws) (p : Candidate) : Candidate :=
  mapCand p fun s e =>
    (1 / 100) * ((d.levyU s e * O.sigma) / O.powInvBeta |d.levyV s e|)

/-- Eq. 17 (with eq. 11's `dt`): `P_i = R - |R - P_i|*F*Levy`. -/
def eq17c (O : RealOps) (F : ℚ) (d : Draws) (R p : Candidate) : Candidate :=
  let L := eq18Levy O d p
  mapCand p fun s e =>
    elemv R s e - |elemv R s e - elemv p s e| * F * elemv L s e

/-- One individual's update: select R by eq. 1, draw F by eq. 4, then the
three-level branch dispatch of the source's inner loop, writing the chosen
equation's output back into slot position `i`. -/
def indivStep (O : RealOps) (cfg : Cfg) (d : Draws) (gen : ℕ)
    (bv : List (Slot × Slot)) (X : Pop) (i : ℕ) : Pop :=
  let R := eq1R bv d.sel
  let F := eq4F O d (gen : ℚ) cfg.Tq
  let p := candidateOf X i
  let c :=
    if 1 ≤ |F| then
      if d.u1 ≤ cfg.P1 then eq6c F d.x7 R p
      else eq8c F d.rand2 d.rand3 cfg.lb cfg.ub R p
    else if 1 / 2 ≤ |F| then
      if d.u2 ≤ cfg.P2 then eq10c F d.x7 d.rand4 R p
      else eq13c O d.rand5 d.rand6 R p
    else
      if d.u3 ≤ cfg.P3 then eq16c F (bv.map Prod.fst) (bv.map Prod.snd) p
      else eq17c O F d R p
  setCand X i c

/-- The per-generation sweep over the first `k` individuals, in index order. -/
def sweepTo (O : RealOps) (cfg : Cfg) (env : Env) (gen : ℕ)
    (bv : List (Slot × Slot)) (X : Pop) (k : ℕ) : Pop :=
  (List.range k).foldl
    (fun Y i => indivStep O cfg (env.draws gen i) gen bv Y i) X

def sweep (O : RealOps) (cfg : Cfg) (env : Env) (gen : ℕ)
    (bv : List (Slot × Slot)) (X : Pop) : Pop :=
  sweepTo O cfg env gen bv X cfg.N

/-- The outer `while gen <= T` loop: evaluate fitness, reselect the best
vultures, record `best_fitness = reduce_min(fitness)`, fire the frequency-
gated log/save hooks, break when `best_fitness < fitness_limit`, else sweep
the individuals and advance the generation. -/
def loop (O : RealOps) (cfg : Cfg) (env : Env) (fit : Candidate → ℚ) :
    ℕ → ℕ → LoopAcc → LoopAcc
  | 0, _, acc => acc
  | fuel + 1, gen, acc =>
    if (gen : ℤ) ≤ cfg.generation_limit then
      if qmin (evalFitness fit acc.pop cfg.N) < cfg.fitness_limit then
        { pop := acc.pop
          passes := acc.passes ++ [evalFitness fit acc.pop cfg.N]
          bests := acc.bests ++ [(gen, qmin (evalFitness fit acc.pop cfg.N))]
          logF := acc.logF ++
            (if 0 < cfg.fitness_log_frequency then [false] else [])
          saves := acc.saves +
            (if 0 < cfg.best_individual_save_frequency ∧
                gen % cfg.best_individual_save_frequency.toNat = 0
             then 1 else 0) }
      else
        loop O cfg env fit fuel (gen + 1)
          { pop := sweep O cfg env gen
              (bestVultures acc.pop (evalFitness fit acc.pop cfg.N)) acc.pop
            passes := acc.passes ++ [evalFitness fit acc.pop cfg.N]
            bests := acc.bests ++ [(gen, qmin (evalFitness fit acc.pop cfg.N))]
            logF := acc.logF ++
              (if 0 < cfg.fitness_log_frequency then [false] else [])
            saves := acc.saves +
              (if 0 < cfg.best_individual_save_frequency ∧
                  gen % cfg.best_individual_save_frequency.toNat = 0
               then 1 else 0) }
    else acc

/-- The run-end actions of `avoa`: `apply_best_solution`, and the
frequency-gated final log (with `force_file_write=True`) and final save. -/
def finish (cfg : Cfg) (fit : Candidate → ℚ) (acc : LoopAcc) : RunResult :=
  { pop := acc.pop
    passes := acc.passes
    bests := acc.bests
    logF := acc.logF
    endLog := if 0 < cfg.fitness_log_frequency then true else false
    endSave := if 0 < cfg.best_individual_save_frequency then true else false
    saves := acc.saves +
      (if 0 < cfg.best_individual_save_frequency then 1 else 0)
    applied := applyBestSolution fit acc.pop cfg.N }

/-- The whole `avoa` call with an explicit loop fuel: create the population
(spec-modelled collaborator), run the generation loop, then the run-end
actions. -/
def runFuel (O : RealOps) (cfg : Cfg) (env : Env) (fit : Candidate → ℚ)
    (fuel : ℕ) : Option RunResult :=
  (createPopulation cfg.shapes cfg.population_size cfg.lb cfg.ub
      cfg.transfer_learning env.initU env.perturb env.target).map fun pop0 =>
    finish cfg fit (loop O cfg env fit fuel 0 ⟨pop0, [], [], [], 0⟩)

/-- `avoa` itself: `gen` counts 0,1,2,… against the guard `gen <= T`, so
`(T+1).toNat` fuel is enough for the recursion to exit through the guard
(fuel-independence is proved with claim C10). -/
def run (O : RealOps) (cfg : Cfg) (env : Env) (fit : Candidate → ℚ) :
    Option RunResult :=
  runFuel O cfg env fit (cfg.generation_limit + 1).toNat

end Avoa

namespace Stbo

/-- Configuration surface of `stbo` (its keyword parameters), plus the
flattened element counts of the `model_weights` slots. -/
structure Cfg where
  generation_limit : ℤ
  fitness_limit : ℚ
  population_size : ℤ
  transfer_learning : Bool
  fitness_log_frequency : ℤ
  best_individual_save_frequency : ℤ
  lb : ℚ
  ub : ℚ
  shapes : List ℕ

def Cfg.N (c : Cfg) : ℕ := c.population_size.toNat

def Cfg.Tq (c : Cfg) : ℚ := (c.generation_limit : ℚ)

/-- The fresh random draws one generation of `stbo` consumes: eq. 5's
elementwise `r` and `I` (`I` uniform over the ints 1,2: `true ↦ 2`), the
per-individual instructor pick of `update_SI` (a uniform integer below the
candidate-set size, modelled as the stream value reduced mod that size), the
per-slot `tf.random.shuffle` permutation of eq. 7, and eq. 10's elementwise
`r`.  Elementwise streams are indexed (slot, individual, element). -/
structure Draws where
  r5 : ℕ → ℕ → ℕ → ℚ
  i5 : ℕ → ℕ → ℕ → Bool
  siPick : ℕ → ℕ
  perm : ℕ → List ℕ
  r10 : ℕ → ℕ → ℕ → ℚ

structure Env where
  draws : ℕ → Draws
  initU : ℕ → ℕ → ℕ → ℚ
  perturb : ℕ → ℕ → ℕ → ℚ
  target : List Slot

/-- Eq. 2: the initial population.  With transfer learning the source calls
`mou.create_population` (spec-modelled collaborator); otherwise the inline
`lb + uniform(0,1)*(ub-lb)` of the source, which has no failure path. -/
def eq2 (cfg : Cfg) (env : Env) : Option Pop :=
  if cfg.transfer_learning then
    createPopulation cfg.shapes cfg.population_size cfg.lb cfg.ub true
      env.initU env.perturb env.target
  else
    some (mkPop cfg.shapes cfg.N fun s i e =>
      cfg.lb + env.initU s i e * (cfg.ub - cfg.lb))

/-- Eq. 4: the candidate instructor set of member `i` — the (ascending)
indices of strictly lower fitness, or `[i]` when none exists. -/
def eq4CSI (F : List ℚ) (i : ℕ) : List ℕ :=
  let CSI := (List.range F.length).filter fun j => F.getD j 0 < F.getD i 0
  if CSI.isEmpty then [i] else CSI

/-- `update_SI`: per member, pick one instructor uniformly from its candidate
instructor set (the raw integer draw is reduced mod the set size). -/
def updateSI (d : Draws) (F : List ℚ) (n : ℕ) : List ℕ :=
  (List.range n).map fun i =>
    let CSI := eq4CSI F i
    CSI.getD (d.siPick i % CSI.length) 0

/-- Eq. 5: `X' = X + r*(gather(X, SI) - I*X)` elementwise. -/
def eq5 (d : Draws) (SI : List ℕ) (X : Pop) : Pop :=
  mapPop X fun s i e =>
    pelem X s i e +
      d.r5 s i e *
        (pelem X s (SI.getD i 0) e - (if d.i5 s i e then 2 else 1) * pelem X s i e)

/-- Eqs. 7-8 on one slot tensor `x` of shape `(N,) + w.shape`:
`m = tf.size(x)` (the WHOLE slot tensor, all `N` individuals),
`ms = round(1 + gen/(2T)*m)` (`tf.round`, half to even), `SDi` the first `ms`
entries of a shuffle of `range m`, and the proposal is `x` flattened with the
positions in `SDi` overwritten from the flattened `gather(x, SI)`. -/
def eq78Slot (gen T : ℚ) (perm : List ℕ) (SI : List ℕ) (slot : List Slot) :
    List Slot :=
  let m := slot.flatten.length
  let ms := (roundEven (1 + gen / (2 * T) * (m : ℚ))).toNat
  let SDi := perm.take ms
  let instr := ((List.range slot.length).map fun i => slot.getD (SI.getD i 0) []).flatten
  chunkLike slot (scatterUpd slot.flatten instr SDi)

def eq78 (cfg : Cfg) (gen : ℕ) (d : Draws) (SI : List ℕ) (X : Pop) : Pop :=
  (List.range X.length).map fun s =>
    eq78Slot (gen : ℚ) cfg.Tq (d.perm s) SI (X.getD s [])

/-- The eq. 10 elementwise update: `clip(x + (lb + r*(ub-lb))/gen, lb, ub)`.
The divisor is the raw generation counter, exactly as in the source. -/
def eq10v (lb ub r gen x : ℚ) : ℚ :=
  clipQ lb ub (x + (lb + r * (ub - lb)) / gen)

def eq10 (cfg : Cfg) (gen : ℕ) (d : Draws) (X : Pop) : Pop :=
  mapPop X fun s i e => eq10v cfg.lb cfg.ub (d.r10 s i e) (gen : ℚ) (pelem X s i e)

/-- `update_improved_positions`: re-evaluate `F` on `X` and `FP` on `XP`
(two fitness passes), then per individual keep the proposal exactly when
`FP[i] < F[i]`, across all slots together, and fold the winning fitness into
`F`.  Returns the new population, the new fitness vector, and the two passes. -/
def updateImproved (fit : Candidate → ℚ) (n : ℕ) (X XP : Pop) :
    Pop × List ℚ × List (List ℚ) :=
  let F := evalFitness fit X n
  let FP := evalFitness fit XP n
  let X1 := (List.range X.length).map fun s =>
    (List.range n).map fun i =>
      if FP.getD i 0 < F.getD i 0 then (XP.getD s []).getD i []
      else (X.getD s []).getD i []
  let F1 := (List.range n).map fun i =>
    if FP.getD i 0 < F.getD i 0 then FP.getD i 0 else F.getD i 0
  (X1, F1, [F, FP])

/-- One generation: the three phases (training / imitation / practice), each
followed by its greedy accept-if-improved step.  Returns the new population,
the new cached fitness vector, and the six evaluation passes in order. -/
def generation (cfg : Cfg) (env : Env) (fit : Candidate → ℚ) (gen : ℕ)
    (X : Pop) (F : List ℚ) : Pop × List ℚ × List (List ℚ) :=
  let d := env.draws gen
  let SI := updateSI d F cfg.N
  let XP1 := eq5 d SI X
  let r1 := updateImproved fit cfg.N X XP1
  let XP2 := eq78 cfg gen d SI r1.1
  let r2 := updateImproved fit cfg.N r1.1 XP2
  let XP3 := eq10 cfg gen d r2.1
  let r3 := updateImproved fit cfg.N r2.1 XP3
  (r3.1, r3.2.1, r1.2.2 ++ (r2.2.2 ++ r3.2.2))

/-- The outer `while best_fitness > fitness_limit and gen <= T` loop of
`stbo`; `best_fitness = reduce_min(F)` is refreshed at the end of the body,
followed by the frequency-gated log/save hooks. -/
def loop (cfg : Cfg) (env : Env) (fit : Candidate → ℚ) :
    ℕ → ℕ → List ℚ → ℚ → LoopAcc → LoopAcc
  | 0, _, _, _, acc => acc
  | fuel + 1, gen, F, best, acc =>
    if cfg.fitness_limit < best ∧ (gen : ℤ) ≤ cfg.generation_limit then
      loop cfg env fit fuel (gen + 1) (generation cfg env fit gen acc.pop F).2.1
        (qmin (generation cfg env fit gen acc.pop F).2.1)
        { pop := (generation cfg env fit gen acc.pop F).1
          passes := acc.passes ++ (generation cfg env fit gen acc.pop F).2.2
          bests := acc.bests ++
            [(gen, qmin (generation cfg env fit gen acc.pop F).2.1)]
          logF := acc.logF ++
            (if 0 < cfg.fitness_log_frequency then [false] else [])
          saves := acc.saves +
            (if 0 < cfg.best_individual_save_frequency ∧
                gen % cfg.best_individual_save_frequency.toNat = 0
             then 1 else 0) }
    else acc

/-- The run-end actions of `stbo`: `apply_best_solution`, and the
frequency-gated final log (with `force_file_write=True`) and final save. -/
def finish (cfg : Cfg) (fit : Candidate → ℚ) (acc : LoopAcc) : RunResult :=
  { pop := acc.pop
    passes := acc.passes
    bests := acc.bests
    logF := acc.logF
    endLog := if 0 < cfg.fitness_log_frequency then true else false
    endSave := if 0 < cfg.best_individual_save_frequency then true else false
    saves := acc.saves +
      (if 0 < cfg.best_individual_save_frequency then 1 else 0)
    applied := applyBestSolution fit acc.pop cfg.N }

/-- The whole `stbo` call with an explicit loop fuel: eq. 2 population, the
initial fitness pass, the generation loop, then the run-end actions. -/
def runFuel (cfg : Cfg) (env : Env) (fit : Candidate → ℚ) (fuel : ℕ) :
    Option RunResult :=
  (eq2 cfg env).map fun X0 =>
    finish cfg fit
      (loop cfg env fit fuel 0 (evalFitness fit X0 cfg.N)
        (qmin (evalFitness fit X0 cfg.N))
        ⟨X0, [evalFitness fit X0 cfg.N], [], [], 0⟩)

/-- `stbo` itself, with the fuel that the guard `gen <= T` makes sufficient. -/
def run (cfg : Cfg) (env : Env) (fit : Candidate → ℚ) : Option RunResult :=
  runFuel cfg env fit (cfg.generation_limit + 1).toNat

end Stbo

/-
  Concrete instances.  `Oz` gives arbitrary (zero) values to the
  transcendental inputs; none of the concrete runs below reaches a branch
  whose claim-relevant outcome depends on them.
-/

def Oz : Avoa.RealOps :=
  ⟨fun _ => 0, fun _ => 0, fun _ => 0, fun _ => 0, fun _ => 0, fun _ => 0, 0, 1⟩

/-- Draw stream for the two-generation `avoa` run: `z = -1`, `h = 0` give
`F = -(1 - gen/T)`; at generation 0 this is `-1`, so with `u1 = 1 > P1 = 0`
every individual takes eq. 8 with `rand_2 = 0`, landing on `R - F = R + 1`;
at generation 1, `F = 0` and `u3 = 1 > P3` sends everyone to eq. 17, which
fixes the position at `R` because `F = 0`. -/
def drawsA : Avoa.Draws :=
  { sel := 0, rand1 := 0, zdraw := -1, hdraw := 0, u1 := 1, u2 := 1, u3 := 1,
    x7 := 0, rand2 := 0, rand3 := 0, rand4 := 0, rand5 := 0, rand6 := 0,
    levyU := fun _ _ => 0, levyV := fun _ _ => 0 }

/-- Two scalar individuals, two generations, logging and saving disabled. -/
def cfgA : Avoa.Cfg :=
  { generation_limit := 1, fitness_limit := -1, population_size := 2,
    transfer_learning := false, fitness_log_frequency := -1,
    best_individual_save_frequency := -1,
    L1 := 8/10, L2 := 2/10, w := 5/2, P1 := 0, P2 := 4/10, P3 := 6/10,
    lb := -1, ub := 1, beta := 3/2, shapes := [1] }

/-- Initial values 0 and 1/2 (uniform draws 1/2 and 3/4 on `[-1,1]`). -/
def envA : Avoa.Env :=
  { draws := fun _ _ => drawsA,
    initU := fun _ i _ => if i = 0 then 1/2 else 3/4,
    perturb := fun _ _ _ => 0, target := [] }

/-- Fitness of a scalar candidate: its value. -/
def fitA : Candidate → ℚ := fun c => elemv c 0 0

/-- Fitness of a scalar candidate: its square (bounded below by 0). -/
def fitQ : Candidate → ℚ := fun c => elemv c 0 0 ^ 2

/-- Draw stream reaching the eq. 16 branch: `z = 0`, `h = 0` give `F = 0`,
and `u3 = 0 ≤ P3` selects eq. 16 (which evaluates eq. 15). -/
def drawsC4 : Avoa.Draws :=
  { sel := 0, rand1 := 0, zdraw := 0, hdraw := 0, u1 := 1, u2 := 1, u3 := 0,
    x7 := 0, rand2 := 0, rand3 := 0, rand4 := 0, rand5 := 0, rand6 := 0,
    levyU := fun _ _ => 0, levyV := fun _ _ => 0 }

def cfgC4 : Avoa.Cfg :=
  { generation_limit := 0, fitness_limit := -1, population_size := 2,
    transfer_learning := false, fitness_log_frequency := -1,
    best_individual_save_frequency := -1,
    L1 := 8/10, L2 := 2/10, w := 5/2, P1 := 0, P2 := 4/10, P3 := 6/10,
    lb := -1, ub := 1, beta := 3/2, shapes := [1] }

/-- Initial values 1/4 and -1/2 (uniform draws 5/8 and 1/4 on `[-1,1]`). -/
def envC4 : Avoa.Env :=
  { draws := fun _ _ => drawsC4,
    initU := fun _ i _ => if i = 0 then 5/8 else 1/4,
    perturb := fun _ _ _ => 0, target := [] }

/-- Fitness minimized at value 1/4, making candidate 0 the best vulture. -/
def fitC4 : Candidate → ℚ := fun c => (elemv c 0 0 - 1/4) ^ 2

/-- The initial population of the `cfgC4` run (value of `createPopulation`). -/
def X0c4 : Pop := [[[1/4], [-1/2]]]

def F0c4 : List ℚ := evalFitness fitC4 X0c4 2

def bvC4 : List (Slot × Slot) := Avoa.bestVultures X0c4 F0c4

/-- State of the generation-0 sweep after individual 0's update, i.e. the
population individual 1's update reads. -/
def X1c4 : Pop := Avoa.sweepTo Oz cfgC4 envC4 0 bvC4 X0c4 1

/-- Draw stream for the `stbo` run: `r = 0` keeps phase 1 in place, the
shuffle is the identity permutation, and phase 3 shifts by
`(lb + 0*(ub-lb))/gen`. -/
def drawsS : Stbo.Draws :=
  { r5 := fun _ _ _ => 0, i5 := fun _ _ _ => false, siPick := fun _ => 0,
    perm := fun _ => [0, 1], r10 := fun _ _ _ => 0 }

/-- Two scalar individuals, three generations (limit 2), no logging/saving. -/
def cfgS : Stbo.Cfg :=
  { generation_limit := 2, fitness_limit := -1, population_size := 2,
    transfer_learning := false, fitness_log_frequency := -1,
    best_individual_save_frequency := -1, lb := -1, ub := 1, shapes := [1] }

def envS : Stbo.Env :=
  { draws := fun _ => drawsS,
    initU := fun _ i _ => if i = 0 then 1/2 else 3/4,
    perturb := fun _ _ _ => 0, target := [] }

def fitS : Candidate → ℚ := fun c => elemv c 0 0 ^ 2

/-- An invalid `avoa` configuration: inverted bounds (`lb = 1 > ub = -1`),
probabilities outside `[0,1]` (`P1 = 2`, `P2 = -1`, `P3 = 2`), and a
non-positive generation limit. -/
def cfgBadA : Avoa.Cfg :=
  { generation_limit := 0, fitness_limit := -1, population_size := 2,
    transfer_learning := false, fitness_log_frequency := -1,
    best_individual_save_frequency := -1,
    L1 := 8/10, L2 := 2/10, w := 5/2, P1 := 2, P2 := -1, P3 := 2,
    lb := 1, ub := -1, beta := 3/2, shapes := [1] }

/-- An invalid `stbo` configuration: inverted bounds and a negative
generation limit. -/
def cfgBadS : Stbo.Cfg :=
  { generation_limit := -3, fitness_limit := -1, population_size := 2,
    transfer_learning := false, fitness_log_frequency := -1,
    best_individual_save_frequency := -1, lb := 1, ub := -1, shapes := [1] }

/-- Concrete inputs for the claim C6 witness: one slot of two scalar
individuals, best-vulture pair `([5], [7])`. -/
def X6w : Pop := [[[0], [2]]]

def bv6w : List (Slot × Slot) := [([5], [7])]

/-- Draw stream taking the eq. 6 branch: `F = -1`, `u1 = 0 ≤ P1`. -/
def d6w : Avoa.Draws :=
  { sel := 0, rand1 := 0, zdraw := -1, hdraw := 0, u1 := 0, u2 := 1, u3 := 1,
    x7 := 1, rand2 := 0, rand3 := 0, rand4 := 0, rand5 := 0, rand6 := 0,
    levyU := fun _ _ => 0, levyV := fun _ _ => 0 }

/-- Concrete inputs for the claim C7 witness. -/
def X7w : Pop := [[[1], [0]]]

def XP7w : Pop := [[[0], [5]]]

/-- The result of the concrete two-generation `avoa` run. -/
def resA : RunResult := (Avoa.run Oz cfgA envA fitA).getD default

/-- The result of the concrete two-generation `avoa` run under the squared
fitness (bounded below, so the threshold never stops it). -/
def resA9 : RunResult := (Avoa.run Oz cfgA envA fitQ).getD default

/-- The result of the concrete three-generation `stbo` run. -/
def resS : RunResult := (Stbo.run cfgS envS fitS).getD default

/-
  Helper lemmas about the list combinators of the model.
-/

theorem getD_map_range {α : Type} (n : ℕ) (f : ℕ → α) (j : ℕ) (d : α)
    (h : j < n) : ((List.range n).map f).getD j d = f j := by
  rw [List.getD_eq_getElem?_getD, List.getElem?_map, List.getElem?_range h]
  rfl

theorem map_range_getD {α β : Type} (xs : List α) (d : α) (f : α → β) :
    (List.range xs.length).map (fun s => f (xs.getD s d)) = xs.map f := by
  induction xs with
  | nil => rfl
  | cons x xs ih =>
    rw [List.length_cons, List.range_succ_eq_map, List.map_cons, List.map_map]
    simp only [List.getD_cons_zero, List.map_cons]
    refine congrArg _ ?_
    have hc : ((fun s => f ((x :: xs).getD s d)) ∘ Nat.succ) =
        fun s => f (xs.getD s d) := by
      funext s
      simp [Function.comp, List.getD_cons_succ]
    rw [hc, ih]

theorem length_mapCand (c : Candidate) (f : ℕ → ℕ → ℚ) :
    (mapCand c f).length = c.length := by
  simp [mapCand]

theorem candShape_mapCand (c : Candidate) (f : ℕ → ℕ → ℚ) :
    candShape (mapCand c f) = candShape c := by
  unfold candShape mapCand
  rw [List.map_map]
  have hc : (List.length ∘ fun s =>
      (List.range ((c.getD s []).length)).map fun e => f s e) =
      fun s => (c.getD s []).length := by
    funext s; simp [Function.comp]
  rw [hc]
  exact map_range_getD c [] List.length

theorem elemv_mapCand (c : Candidate) (f : ℕ → ℕ → ℚ) (s e : ℕ)
    (hs : s < c.length) (he : e < (c.getD s []).length) :
    elemv (mapCand c f) s e = f s e := by
  unfold elemv mapCand
  rw [getD_map_range _ _ _ _ hs, getD_map_range _ _ _ _ he]

theorem mapCand_congr (c : Candidate) (f g : ℕ → ℕ → ℚ)
    (h : ∀ s, s < c.length → ∀ e, e < (c.getD s []).length → f s e = g s e) :
    mapCand c f = mapCand c g := by
  unfold mapCand
  refine List.map_congr_left fun s hs => ?_
  refine List.map_congr_left fun e he => ?_
  exact h s (List.mem_range.mp hs) e (List.mem_range.mp he)

theorem length_mapPop (X : Pop) (f : ℕ → ℕ → ℕ → ℚ) :
    (mapPop X f).length = X.length := by
  simp [mapPop]

theorem popShape_mapPop (X : Pop) (f : ℕ → ℕ → ℕ → ℚ) :
    popShape (mapPop X f) = popShape X := by
  unfold popShape mapPop
  rw [List.map_map]
  rw [show (List.map List.length ∘ fun s =>
      (List.range ((X.getD s []).length)).map fun i =>
        (List.range (((X.getD s []).getD i []).length)).map fun e => f s i e) =
      fun s => (List.range ((X.getD s []).length)).map fun i =>
        (((X.getD s []).getD i []).length) by
    funext s
    simp [Function.comp]]
  have h1 : ∀ s : ℕ,
      (List.range ((X.getD s []).length)).map
        (fun i => (((X.getD s []).getD i []).length)) =
      (X.getD s []).map List.length := fun s =>
    map_range_getD (X.getD s []) [] List.length
  rw [show (fun s => (List.range ((X.getD s []).length)).map fun i =>
      (((X.getD s []).getD i []).length)) =
      (fun s => (X.getD s []).map List.length) by funext s; exact h1 s]
  exact map_range_getD X [] (List.map List.length)

theorem pelem_mapPop (X : Pop) (f : ℕ → ℕ → ℕ → ℚ) (s i e : ℕ)
    (hs : s < X.length) (hi : i < (X.getD s []).length)
    (he : e < ((X.getD s []).getD i []).length) :
    pelem (mapPop X f) s i e = f s i e := by
  unfold pelem mapPop
  rw [getD_map_range _ _ _ _ hs, getD_map_range _ _ _ _ hi,
    getD_map_range _ _ _ _ he]

theorem getD_set_lt {α : Type} (l : List α) (i : ℕ) (a : α) (d : α)
    (h : i < l.length) : (l.set i a).getD i d = a := by
  rw [List.getD_eq_getElem?_getD, List.getElem?_set_self]
  · rfl
  · exact h

theorem length_setCand (X : Pop) (i : ℕ) (c : Candidate) :
    (setCand X i c).length = X.length := by
  simp [setCand]

theorem candidateOf_setCand (X : Pop) (i : ℕ) (c : Candidate)
    (hlen : c.length = X.length)
    (hi : ∀ s, s < X.length → i < (X.getD s []).length) :
    candidateOf (setCand X i c) i = c := by
  unfold candidateOf setCand
  rw [List.map_map]
  have h1 : ∀ s ∈ List.range X.length,
      ((fun slot => slot.getD i []) ∘ fun s =>
        (X.getD s []).set i (c.getD s [])) s = c.getD s [] := by
    intro s hs
    exact getD_set_lt _ _ _ _ (hi s (List.mem_range.mp hs))
  rw [List.map_congr_left h1, ← hlen]
  simpa using map_range_getD c [] id

theorem length_candidateOf (X : Pop) (i : ℕ) :
    (candidateOf X i).length = X.length := by
  simp [candidateOf]

theorem getD_map_of_lt {α β : Type} (l : List α) (f : α → β) (s : ℕ)
    (d : β) (d' : α) (h : s < l.length) :
    (l.map f).getD s d = f (l.getD s d') := by
  rw [List.getD_eq_getElem?_getD, List.getElem?_map,
    List.getElem?_eq_getElem h, List.getD_eq_getElem?_getD,
    List.getElem?_eq_getElem h]
  rfl

theorem getD_candidateOf (X : Pop) (i s : ℕ) (hs : s < X.length) :
    (candidateOf X i).getD s [] = (X.getD s []).getD i [] := by
  unfold candidateOf
  exact getD_map_of_lt X _ s [] [] hs

theorem length_getD_mapCand (c : Candidate) (f : ℕ → ℕ → ℚ) (s : ℕ)
    (hs : s < c.length) :
    ((mapCand c f).getD s []).length = (c.getD s []).length := by
  unfold mapCand
  rw [getD_map_range _ _ _ _ hs]
  simp

/-
  Minimum / argmin lemmas (`tf.reduce_min`, `tf.argmin`).
-/

theorem getD_mem_of_lt {α : Type} (l : List α) (n : ℕ) (d : α)
    (h : n < l.length) : l.getD n d ∈ l := by
  rw [List.getD_eq_getElem?_getD, List.getElem?_eq_getElem h]
  exact List.getElem_mem h

theorem map_range_const {α : Type} (n : ℕ) (c : α) :
    (List.range n).map (fun _ => c) = List.replicate n c := by
  induction n with
  | zero => rfl
  | succ m ih =>
    rw [List.range_succ, List.map_append, ih, List.replicate_succ']
    rfl

theorem foldl_min_le_init (l : List ℚ) (a : ℚ) : l.foldl min a ≤ a := by
  induction l generalizing a with
  | nil => simp
  | cons x xs ih => exact le_trans (ih (min a x)) (min_le_left a x)

theorem foldl_min_le_mem (l : List ℚ) (a b : ℚ) (hb : b ∈ l) :
    l.foldl min a ≤ b := by
  induction l generalizing a with
  | nil => cases hb
  | cons x xs ih =>
    simp only [List.foldl_cons]
    rcases List.mem_cons.mp hb with h | h
    · subst h
      exact le_trans (foldl_min_le_init xs (min a b)) (min_le_right a b)
    · exact ih (min a x) h

theorem foldl_min_mem (l : List ℚ) (a : ℚ) :
    l.foldl min a = a ∨ l.foldl min a ∈ l := by
  induction l generalizing a with
  | nil => exact Or.inl rfl
  | cons x xs ih =>
    simp only [List.foldl_cons]
    rcases ih (min a x) with h | h
    · rcases min_choice a x with he | he
      · exact Or.inl (by rw [h, he])
      · exact Or.inr (by rw [h, he]; exact List.mem_cons_self x xs)
    · exact Or.inr (List.mem_cons_of_mem x h)

theorem qmin_mem (F : List ℚ) (h : F ≠ []) : qmin F ∈ F := by
  cases F with
  | nil => cases h rfl
  | cons x xs =>
    have hq : qmin (x :: xs) = xs.foldl min x := rfl
    rw [hq]
    rcases foldl_min_mem xs x with h1 | h1
    · rw [h1]; exact List.mem_cons_self x xs
    · exact List.mem_cons_of_mem x h1

theorem qmin_le_mem (F : List ℚ) (b : ℚ) (hb : b ∈ F) : qmin F ≤ b := by
  cases F with
  | nil => cases hb
  | cons x xs =>
    have hq : qmin (x :: xs) = xs.foldl min x := rfl
    rw [hq]
    rcases List.mem_cons.mp hb with h | h
    · subst h; exact foldl_min_le_init xs b
    · exact foldl_min_le_mem xs x b h

theorem foldl_min_mono (l1 : List ℚ) : ∀ (l2 : List ℚ) (a1 a2 : ℚ),
    a1 ≤ a2 → l1.length = l2.length →
    (∀ k, k < l1.length → l1.getD k 0 ≤ l2.getD k 0) →
    l1.foldl min a1 ≤ l2.foldl min a2 := by
  induction l1 with
  | nil =>
    intro l2 a1 a2 ha hlen _
    cases l2 with
    | nil => simpa using ha
    | cons y ys => simp at hlen
  | cons x xs ih =>
    intro l2 a1 a2 ha hlen h
    cases l2 with
    | nil => simp at hlen
    | cons y ys =>
      simp only [List.foldl_cons]
      refine ih ys (min a1 x) (min a2 y) (min_le_min ha ?_)
        (by simpa using hlen) ?_
      · simpa using h 0 (by simp)
      · intro k hk
        simpa using h (k + 1) (by simpa using Nat.succ_lt_succ hk)

theorem qmin_pointwise (a b : List ℚ) (hlen : a.length = b.length)
    (h : ∀ k, k < a.length → a.getD k 0 ≤ b.getD k 0) : qmin a ≤ qmin b := by
  cases a with
  | nil =>
    cases b with
    | nil => exact le_refl _
    | cons y ys => simp at hlen
  | cons x xs =>
    cases b with
    | nil => simp at hlen
    | cons y ys =>
      have hq1 : qmin (x :: xs) = xs.foldl min x := rfl
      have hq2 : qmin (y :: ys) = ys.foldl min y := rfl
      rw [hq1, hq2]
      refine foldl_min_mono xs ys x y ?_ (by simpa using hlen) ?_
      · simpa using h 0 (by simp)
      · intro k hk
        simpa using h (k + 1) (by simpa using Nat.succ_lt_succ hk)

theorem qmin_append (a b : List ℚ) (ha : a ≠ []) (hb : b ≠ []) :
    qmin (a ++ b) = min (qmin a) (qmin b) := by
  apply le_antisymm
  · exact le_min
      (qmin_le_mem _ _ (List.mem_append_left b (qmin_mem a ha)))
      (qmin_le_mem _ _ (List.mem_append_right a (qmin_mem b hb)))
  · have hab : a ++ b ≠ [] := by
      intro hc
      exact ha (List.append_eq_nil.mp hc).1
    rcases List.mem_append.mp (qmin_mem (a ++ b) hab) with h | h
    · exact le_trans (min_le_left _ _) (qmin_le_mem a _ h)
    · exact le_trans (min_le_right _ _) (qmin_le_mem b _ h)

theorem argmin_foldl (F : List ℚ) (l : List ℕ) : ∀ b : ℕ,
    (l.foldl (fun best j => if F.getD j 0 < F.getD best 0 then j else best) b
        = b ∨
     l.foldl (fun best j => if F.getD j 0 < F.getD best 0 then j else best) b
        ∈ l) ∧
    F.getD (l.foldl
        (fun best j => if F.getD j 0 < F.getD best 0 then j else best) b) 0
      ≤ F.getD b 0 ∧
    ∀ j ∈ l, F.getD (l.foldl
        (fun best j => if F.getD j 0 < F.getD best 0 then j else best) b) 0
      ≤ F.getD j 0 := by
  induction l with
  | nil =>
    intro b
    exact ⟨Or.inl rfl, le_refl _, by simp⟩
  | cons x xs ih =>
    intro b
    simp only [List.foldl_cons]
    by_cases hx : F.getD x 0 < F.getD b 0
    · rw [if_pos hx]
      obtain ⟨hm, hle, hall⟩ := ih x
      refine ⟨?_, le_trans hle (le_of_lt hx), ?_⟩
      · rcases hm with h | h
        · exact Or.inr (by rw [h]; exact List.mem_cons_self x xs)
        · exact Or.inr (List.mem_cons_of_mem x h)
      · intro j hj
        rcases List.mem_cons.mp hj with h | h
        · subst h; exact hle
        · exact hall j h
    · rw [if_neg hx]
      obtain ⟨hm, hle, hall⟩ := ih b
      refine ⟨?_, hle, ?_⟩
      · rcases hm with h | h
        · exact Or.inl h
        · exact Or.inr (List.mem_cons_of_mem x h)
      · intro j hj
        rcases List.mem_cons.mp hj with h | h
        · subst h; exact le_trans hle (not_lt.mp hx)
        · exact hall j h

theorem argminIdx_lt (F : List ℚ) (h : F ≠ []) : argminIdx F < F.length := by
  unfold argminIdx
  obtain ⟨hm, -, -⟩ := argmin_foldl F (List.range F.length) 0
  rcases hm with h1 | h1
  · rw [h1]; exact List.length_pos.mpr h
  · exact List.mem_range.mp h1

theorem getD_argminIdx (F : List ℚ) (h : F ≠ []) :
    F.getD (argminIdx F) 0 = qmin F := by
  obtain ⟨-, -, hall⟩ := argmin_foldl F (List.range F.length) 0
  apply le_antisymm
  · obtain ⟨k, hk, hkeq⟩ := List.mem_iff_getElem.mp (qmin_mem F h)
    have hgd : F.getD k 0 = qmin F := by
      rw [List.getD_eq_getElem?_getD, List.getElem?_eq_getElem hk]
      exact hkeq
    calc F.getD (argminIdx F) 0 ≤ F.getD k 0 :=
          hall k (List.mem_range.mpr hk)
      _ = qmin F := hgd
  · exact qmin_le_mem F _ (getD_mem_of_lt F _ 0 (argminIdx_lt F h))

/-
  Well-formedness extraction and preservation.
-/

theorem WF_length (shapes : List ℕ) (n : ℕ) (X : Pop) (h : WF shapes n X) :
    X.length = shapes.length := by
  have h2 := congrArg List.length h
  simpa [popShape] using h2

theorem WF_slot_map (shapes : List ℕ) (n : ℕ) (X : Pop) (h : WF shapes n X)
    (s : ℕ) (hs : s < X.length) :
    (X.getD s []).map List.length = List.replicate n (shapes.getD s 0) := by
  have h2 := congrArg (fun L => L.getD s ([] : List ℕ)) h
  simp only [popShape] at h2
  rw [getD_map_of_lt X _ s [] [] hs] at h2
  rw [getD_map_of_lt shapes _ s [] 0
    (by rw [← WF_length shapes n X h]; exact hs)] at h2
  exact h2

theorem WF_slot_length (shapes : List ℕ) (n : ℕ) (X : Pop) (h : WF shapes n X)
    (s : ℕ) (hs : s < X.length) : (X.getD s []).length = n := by
  have h2 := congrArg List.length (WF_slot_map shapes n X h s hs)
  simpa using h2

theorem WF_elt_length (shapes : List ℕ) (n : ℕ) (X : Pop) (h : WF shapes n X)
    (s i : ℕ) (hs : s < X.length) (hi : i < n) :
    ((X.getD s []).getD i []).length = shapes.getD s 0 := by
  have h2 := congrArg (fun L => L.getD i (0 : ℕ)) (WF_slot_map shapes n X h s hs)
  simp only at h2
  rw [getD_map_of_lt (X.getD s []) _ i 0 []
    (by rw [WF_slot_length shapes n X h s hs]; exact hi)] at h2
  rw [h2, List.getD_eq_getElem?_getD, List.getElem?_replicate, if_pos hi]
  rfl

theorem WF_mkPop (shapes : List ℕ) (n : ℕ) (f : ℕ → ℕ → ℕ → ℚ) :
    WF shapes n (mkPop shapes n f) := by
  unfold WF popShape mkPop
  rw [List.map_map]
  have hc : (List.map List.length ∘ fun s => (List.range n).map fun i =>
      (List.range (shapes.getD s 0)).map fun e => f s i e) =
      fun s => List.replicate n (shapes.getD s 0) := by
    funext s
    rw [Function.comp, List.map_map]
    have hcc : (List.length ∘ fun i =>
        (List.range (shapes.getD s 0)).map fun e => f s i e) =
        fun _ => shapes.getD s 0 := by
      funext i; simp [Function.comp]
    rw [hcc, map_range_const]
  rw [hc]
  exact map_range_getD shapes 0 fun sz => List.replicate n sz

theorem set_replicate_self {α : Type} (n i : ℕ) (a : α) :
    (List.replicate n a).set i a = List.replicate n a := by
  induction n generalizing i with
  | zero => rfl
  | succ m ih =>
    cases i with
    | zero => simp [List.replicate_succ]
    | succ j => simp [List.replicate_succ, ih]

theorem WF_setCand (shapes : List ℕ) (n : ℕ) (X : Pop) (i : ℕ) (c : Candidate)
    (h : WF shapes n X)
    (hc : ∀ s, s < X.length → (c.getD s []).length = shapes.getD s 0) :
    WF shapes n (setCand X i c) := by
  unfold WF popShape setCand
  rw [List.map_map]
  have hL := WF_length shapes n X h
  have hc2 : ∀ s ∈ List.range X.length,
      (List.map List.length ∘ fun s => (X.getD s []).set i (c.getD s [])) s =
      (fun s => List.replicate n (shapes.getD s 0)) s := by
    intro s hs
    have hs' := List.mem_range.mp hs
    simp only [Function.comp, List.map_set]
    rw [WF_slot_map shapes n X h s hs', hc s hs', set_replicate_self]
  rw [List.map_congr_left hc2, hL]
  exact map_range_getD shapes 0 fun sz => List.replicate n sz

/-
  Scatter / reshape lemmas (stbo eqs. 7-8).
-/

theorem length_scatterUpd (x instr : List ℚ) (idxs : List ℕ) :
    (scatterUpd x instr idxs).length = x.length := by
  simp [scatterUpd]

theorem getD_scatterUpd (x instr : List ℚ) (idxs : List ℕ) (j : ℕ)
    (hj : j < x.length) :
    (scatterUpd x instr idxs).getD j 0 =
      if j ∈ idxs then instr.getD j 0 else x.getD j 0 := by
  unfold scatterUpd
  rw [getD_map_range _ _ _ _ hj]

theorem chunkLike_map_length (slot : List Slot) : ∀ flat : List ℚ,
    slot.flatten.length ≤ flat.length →
    (chunkLike slot flat).map List.length = slot.map List.length := by
  induction slot with
  | nil => intro flat _; rfl
  | cons s rest ih =>
    intro flat h
    simp only [List.flatten_cons, List.length_append] at h
    simp only [chunkLike, List.map_cons]
    rw [List.length_take, min_eq_left (by omega)]
    rw [ih (flat.drop s.length) (by rw [List.length_drop]; omega)]

theorem chunkLike_flatten (slot : List Slot) : ∀ flat : List ℚ,
    flat.length = slot.flatten.length →
    (chunkLike slot flat).flatten = flat := by
  induction slot with
  | nil =>
    intro flat h
    simp only [List.flatten_nil, List.length_nil] at h
    simp [chunkLike, List.length_eq_zero.mp h]
  | cons s rest ih =>
    intro flat h
    simp only [List.flatten_cons, List.length_append] at h
    simp only [chunkLike, List.flatten_cons]
    rw [ih (flat.drop s.length) (by rw [List.length_drop]; omega)]
    exact List.take_append_drop s.length flat

/-
  Fitness-evaluation and accept-if-improved lemmas.
-/

theorem length_evalFitness (fit : Candidate → ℚ) (X : Pop) (n : ℕ) :
    (evalFitness fit X n).length = n := by
  simp [evalFitness]

theorem getD_evalFitness (fit : Candidate → ℚ) (X : Pop) (n i : ℕ)
    (hi : i < n) : (evalFitness fit X n).getD i 0 = fit (candidateOf X i) := by
  unfold evalFitness
  exact getD_map_range _ _ _ _ hi

theorem evalFitness_ne_nil (fit : Candidate → ℚ) (X : Pop) (n : ℕ)
    (hn : 0 < n) : evalFitness fit X n ≠ [] := by
  intro h
  have h2 := congrArg List.length h
  rw [length_evalFitness] at h2
  simp at h2
  omega

theorem qmin_le_of_forall (l : List ℚ) (c : ℚ) (hne : l ≠ [])
    (h : ∀ b ∈ l, c ≤ b) : c ≤ qmin l :=
  h _ (qmin_mem l hne)

theorem qmin_evalFitness_is_value (fit : Candidate → ℚ) (Y : Pop) (n : ℕ)
    (hn : 0 < n) : ∃ c : Candidate, qmin (evalFitness fit Y n) = fit c := by
  have hm := qmin_mem _ (evalFitness_ne_nil fit Y n hn)
  unfold evalFitness at hm
  obtain ⟨i, -, hi⟩ := List.mem_map.mp hm
  exact ⟨candidateOf Y i, hi.symm⟩

theorem qmin_eval_gt (fit : Candidate → ℚ) (limit : ℚ) (n : ℕ) (hn : 0 < n)
    (hstop : ∀ c : Candidate, limit < fit c) (Y : Pop) :
    limit < qmin (evalFitness fit Y n) := by
  obtain ⟨c, hc⟩ := qmin_evalFitness_is_value fit Y n hn
  rw [hc]
  exact hstop c


namespace Stbo

theorem length_updateImproved_pop (fit : Candidate → ℚ) (n : ℕ) (X XP : Pop) :
    (updateImproved fit n X XP).1.length = X.length := by
  simp [updateImproved]

theorem length_eq5 (d : Draws) (SI : List ℕ) (X : Pop) :
    (eq5 d SI X).length = X.length :=
  length_mapPop X _

theorem length_eq78 (cfg : Cfg) (gen : ℕ) (d : Draws) (SI : List ℕ) (X : Pop) :
    (eq78 cfg gen d SI X).length = X.length := by
  simp [eq78]

theorem length_eq10 (cfg : Cfg) (gen : ℕ) (d : Draws) (X : Pop) :
    (eq10 cfg gen d X).length = X.length :=
  length_mapPop X _

theorem updateImproved_passes (fit : Candidate → ℚ) (n : ℕ) (X XP : Pop) :
    (updateImproved fit n X XP).2.2 =
      [evalFitness fit X n, evalFitness fit XP n] := rfl

theorem updateImproved_F_getD (fit : Candidate → ℚ) (n : ℕ) (X XP : Pop)
    (i : ℕ) (hi : i < n) :
    (updateImproved fit n X XP).2.1.getD i 0 =
      if (evalFitness fit XP n).getD i 0 < (evalFitness fit X n).getD i 0
      then (evalFitness fit XP n).getD i 0
      else (evalFitness fit X n).getD i 0 := by
  unfold updateImproved
  simp only
  exact getD_map_range _ _ _ _ hi

theorem updateImproved_cand (fit : Candidate → ℚ) (n : ℕ) (X XP : Pop)
    (i : ℕ) (hi : i < n) (hL : XP.length = X.length) :
    candidateOf (updateImproved fit n X XP).1 i =
      if (evalFitness fit XP n).getD i 0 < (evalFitness fit X n).getD i 0
      then candidateOf XP i else candidateOf X i := by
  unfold updateImproved candidateOf
  simp only [List.map_map]
  have h1 : ∀ s ∈ List.range X.length,
      ((fun slot => slot.getD i []) ∘ fun s => (List.range n).map fun j =>
        if (evalFitness fit XP n).getD j 0 < (evalFitness fit X n).getD j 0
        then (XP.getD s []).getD j [] else (X.getD s []).getD j []) s =
      (if (evalFitness fit XP n).getD i 0 < (evalFitness fit X n).getD i 0
       then (XP.getD s []).getD i [] else (X.getD s []).getD i []) := by
    intro s _
    exact getD_map_range _ _ _ _ hi
  rw [List.map_congr_left h1]
  by_cases hc :
      (evalFitness fit XP n).getD i 0 < (evalFitness fit X n).getD i 0
  · simp only [if_pos hc]
    rw [← hL]
    exact map_range_getD XP [] fun slot => slot.getD i []
  · simp only [if_neg hc]
    exact map_range_getD X [] fun slot => slot.getD i []

theorem evalFitness_updateImproved (fit : Candidate → ℚ) (n : ℕ) (X XP : Pop)
    (hL : XP.length = X.length) :
    evalFitness fit (updateImproved fit n X XP).1 n =
      (updateImproved fit n X XP).2.1 := by
  have h1 : ∀ i ∈ List.range n,
      fit (candidateOf (updateImproved fit n X XP).1 i) =
      (if (evalFitness fit XP n).getD i 0 < (evalFitness fit X n).getD i 0
       then (evalFitness fit XP n).getD i 0
       else (evalFitness fit X n).getD i 0) := by
    intro i hi
    have hi' := List.mem_range.mp hi
    rw [updateImproved_cand fit n X XP i hi' hL]
    by_cases hc :
        (evalFitness fit XP n).getD i 0 < (evalFitness fit X n).getD i 0
    · rw [if_pos hc, if_pos hc, getD_evalFitness fit XP n i hi']
    · rw [if_neg hc, if_neg hc, getD_evalFitness fit X n i hi']
  unfold evalFitness updateImproved
  simp only
  exact List.map_congr_left h1

theorem qmin_updateImproved (fit : Candidate → ℚ) (n : ℕ) (X XP : Pop)
    (hn : 0 < n) :
    qmin (updateImproved fit n X XP).2.1 =
      min (qmin (evalFitness fit X n)) (qmin (evalFitness fit XP n)) := by
  set F := evalFitness fit X n with hF
  set FP := evalFitness fit XP n with hFP
  have hFn : F.length = n := length_evalFitness fit X n
  have hFPn : FP.length = n := length_evalFitness fit XP n
  have hlen : (updateImproved fit n X XP).2.1.length = n := by
    simp [updateImproved]
  have hne : (updateImproved fit n X XP).2.1 ≠ [] := by
    intro h
    have := congrArg List.length h
    rw [hlen] at this
    simp at this
    omega
  apply le_antisymm
  · refine le_min ?_ ?_
    · refine qmin_pointwise _ F (by rw [hlen, hFn]) ?_
      intro k hk
      rw [hlen] at hk
      rw [updateImproved_F_getD fit n X XP k hk, ← hF, ← hFP]
      by_cases hc : FP.getD k 0 < F.getD k 0
      · rw [if_pos hc]; exact le_of_lt hc
      · rw [if_neg hc]
    · refine qmin_pointwise _ FP (by rw [hlen, hFPn]) ?_
      intro k hk
      rw [hlen] at hk
      rw [updateImproved_F_getD fit n X XP k hk, ← hF, ← hFP]
      by_cases hc : FP.getD k 0 < F.getD k 0
      · rw [if_pos hc]
      · rw [if_neg hc]; exact not_lt.mp hc
  · refine qmin_le_of_forall _ _ hne ?_
    intro b hb
    obtain ⟨k, hk, hkeq⟩ := List.mem_iff_getElem.mp hb
    rw [hlen] at hk
    have hget : (updateImproved fit n X XP).2.1.getD k 0 = b := by
      rw [List.getD_eq_getElem?_getD, List.getElem?_eq_getElem (by omega)]
      exact hkeq
    rw [← hget, updateImproved_F_getD fit n X XP k hk, ← hF, ← hFP]
    by_cases hc : FP.getD k 0 < F.getD k 0
    · rw [if_pos hc]
      exact le_trans (min_le_right _ _)
        (qmin_le_mem FP _ (getD_mem_of_lt FP k 0 (by omega)))
    · rw [if_neg hc]
      exact le_trans (min_le_left _ _)
        (qmin_le_mem F _ (getD_mem_of_lt F k 0 (by omega)))

end Stbo

theorem WF_of_popShape_eq (shapes : List ℕ) (n : ℕ) (X Y : Pop)
    (hs : popShape Y = popShape X) (h : WF shapes n X) : WF shapes n Y := by
  unfold WF at *
  rw [hs, h]

namespace Stbo

theorem eq78Slot_map_length (gen T : ℚ) (perm : List ℕ) (SI : List ℕ)
    (slot : List Slot) :
    (eq78Slot gen T perm SI slot).map List.length = slot.map List.length := by
  unfold eq78Slot
  exact chunkLike_map_length slot _ (by rw [length_scatterUpd])

theorem popShape_eq78 (cfg : Cfg) (gen : ℕ) (d : Draws) (SI : List ℕ)
    (X : Pop) : popShape (eq78 cfg gen d SI X) = popShape X := by
  unfold popShape eq78
  rw [List.map_map]
  have hc : ∀ s ∈ List.range X.length,
      (List.map List.length ∘ fun s =>
        eq78Slot (gen : ℚ) cfg.Tq (d.perm s) SI (X.getD s [])) s =
      (fun s => (X.getD s []).map List.length) s := by
    intro s _
    exact eq78Slot_map_length _ _ _ _ _
  rw [List.map_congr_left hc]
  exact map_range_getD X [] fun slot => slot.map List.length

theorem WF_updateImproved (shapes : List ℕ) (n : ℕ) (fit : Candidate → ℚ)
    (X XP : Pop) (hX : WF shapes n X) (hXP : WF shapes n XP) :
    WF shapes n (updateImproved fit n X XP).1 := by
  unfold WF popShape updateImproved
  simp only [List.map_map]
  have hLX := WF_length shapes n X hX
  have hLXP := WF_length shapes n XP hXP
  have hc : ∀ s ∈ List.range X.length,
      (List.map List.length ∘ fun s => (List.range n).map fun i =>
        if (evalFitness fit XP n).getD i 0 < (evalFitness fit X n).getD i 0
        then (XP.getD s []).getD i [] else (X.getD s []).getD i []) s =
      (fun s => List.replicate n (shapes.getD s 0)) s := by
    intro s hs
    have hs' := List.mem_range.mp hs
    simp only [Function.comp, List.map_map]
    have hin : ∀ i ∈ List.range n,
        (List.length ∘ fun i =>
          if (evalFitness fit XP n).getD i 0 < (evalFitness fit X n).getD i 0
          then (XP.getD s []).getD i [] else (X.getD s []).getD i []) i =
        (fun _ => shapes.getD s 0) i := by
      intro i hi
      have hi' := List.mem_range.mp hi
      simp only [Function.comp]
      by_cases hcc :
          (evalFitness fit XP n).getD i 0 < (evalFitness fit X n).getD i 0
      · rw [if_pos hcc]
        exact WF_elt_length shapes n XP hXP s i (by omega) hi'
      · rw [if_neg hcc]
        exact WF_elt_length shapes n X hX s i hs' hi'
    rw [List.map_congr_left hin, map_range_const]
  rw [List.map_congr_left hc, hLX]
  exact map_range_getD shapes 0 fun sz => List.replicate n sz

theorem WF_generation (shapes : List ℕ) (cfg : Cfg) (env : Env)
    (fit : Candidate → ℚ) (gen : ℕ) (X : Pop) (F : List ℚ)
    (hX : WF shapes cfg.N X) :
    WF shapes cfg.N (generation cfg env fit gen X F).1 := by
  unfold generation
  simp only
  have h1 : WF shapes cfg.N (eq5 (env.draws gen)
      (updateSI (env.draws gen) F cfg.N) X) :=
    WF_of_popShape_eq _ _ _ _ (popShape_mapPop X _) hX
  have h2 := WF_updateImproved shapes cfg.N fit X _ hX h1
  have h3 : WF shapes cfg.N (eq78 cfg gen (env.draws gen)
      (updateSI (env.draws gen) F cfg.N)
      (updateImproved fit cfg.N X _).1) :=
    WF_of_popShape_eq _ _ _ _ (popShape_eq78 _ _ _ _ _) h2
  have h4 := WF_updateImproved shapes cfg.N fit _ _ h2 h3
  have h5 : WF shapes cfg.N (eq10 cfg gen (env.draws gen)
      (updateImproved fit cfg.N _ _).1) :=
    WF_of_popShape_eq _ _ _ _ (popShape_mapPop _ _) h4
  exact WF_updateImproved shapes cfg.N fit _ _ h4 h5

theorem generation_facts (cfg : Cfg) (env : Env) (fit : Candidate → ℚ)
    (gen : ℕ) (X : Pop) (F : List ℚ) (hn : 0 < cfg.N) :
    evalFitness fit (generation cfg env fit gen X F).1 cfg.N =
        (generation cfg env fit gen X F).2.1 ∧
    (generation cfg env fit gen X F).1.length = X.length ∧
    (generation cfg env fit gen X F).2.2.length = 6 ∧
    (∀ P ∈ (generation cfg env fit gen X F).2.2, P.length = cfg.N) ∧
    evalFitness fit X cfg.N ∈ (generation cfg env fit gen X F).2.2 ∧
    (∀ P ∈ (generation cfg env fit gen X F).2.2,
        qmin (generation cfg env fit gen X F).2.1 ≤ qmin P) ∧
    (∃ P ∈ (generation cfg env fit gen X F).2.2,
        qmin P = qmin (generation cfg env fit gen X F).2.1) := by
  unfold generation
  simp only
  set d := env.draws gen with hd
  set SI := updateSI d F cfg.N with hSI
  set XP1 := eq5 d SI X with hXP1
  set r1 := updateImproved fit cfg.N X XP1 with hr1
  set XP2 := eq78 cfg gen d SI r1.1 with hXP2
  set r2 := updateImproved fit cfg.N r1.1 XP2 with hr2
  set XP3 := eq10 cfg gen d r2.1 with hXP3
  set r3 := updateImproved fit cfg.N r2.1 XP3 with hr3
  have hL1 : XP1.length = X.length := length_eq5 d SI X
  have hL2 : XP2.length = r1.1.length := length_eq78 cfg gen d SI r1.1
  have hL3 : XP3.length = r2.1.length := length_eq10 cfg gen d r2.1
  have e1 : evalFitness fit r1.1 cfg.N = r1.2.1 := by
    rw [hr1]; exact evalFitness_updateImproved fit cfg.N X XP1 hL1
  have e2 : evalFitness fit r2.1 cfg.N = r2.2.1 := by
    rw [hr2]; exact evalFitness_updateImproved fit cfg.N r1.1 XP2 hL2
  have e3 : evalFitness fit r3.1 cfg.N = r3.2.1 := by
    rw [hr3]; exact evalFitness_updateImproved fit cfg.N r2.1 XP3 hL3
  have q1 : qmin r1.2.1 =
      min (qmin (evalFitness fit X cfg.N)) (qmin (evalFitness fit XP1 cfg.N)) := by
    rw [hr1]; exact qmin_updateImproved fit cfg.N X XP1 hn
  have q2 : qmin r2.2.1 =
      min (qmin (evalFitness fit r1.1 cfg.N)) (qmin (evalFitness fit XP2 cfg.N)) := by
    rw [hr2]; exact qmin_updateImproved fit cfg.N r1.1 XP2 hn
  have q3 : qmin r3.2.1 =
      min (qmin (evalFitness fit r2.1 cfg.N)) (qmin (evalFitness fit XP3 cfg.N)) := by
    rw [hr3]; exact qmin_updateImproved fit cfg.N r2.1 XP3 hn
  have hp1 : r1.2.2 = [evalFitness fit X cfg.N, evalFitness fit XP1 cfg.N] := by
    rw [hr1]; exact updateImproved_passes fit cfg.N X XP1
  have hp2 : r2.2.2 = [evalFitness fit r1.1 cfg.N, evalFitness fit XP2 cfg.N] := by
    rw [hr2]; exact updateImproved_passes fit cfg.N r1.1 XP2
  have hp3 : r3.2.2 = [evalFitness fit r2.1 cfg.N, evalFitness fit XP3 cfg.N] := by
    rw [hr3]; exact updateImproved_passes fit cfg.N r2.1 XP3
  have hc1 : qmin r3.2.1 ≤ qmin (evalFitness fit r2.1 cfg.N) := by
    rw [q3]; exact min_le_left _ _
  have hc2 : qmin r3.2.1 ≤ qmin (evalFitness fit XP3 cfg.N) := by
    rw [q3]; exact min_le_right _ _
  have hc3 : qmin r3.2.1 ≤ qmin (evalFitness fit r1.1 cfg.N) := by
    refine le_trans hc1 ?_
    rw [e2, q2]; exact min_le_left _ _
  have hc4 : qmin r3.2.1 ≤ qmin (evalFitness fit XP2 cfg.N) := by
    refine le_trans hc1 ?_
    rw [e2, q2]; exact min_le_right _ _
  have hc5 : qmin r3.2.1 ≤ qmin (evalFitness fit X cfg.N) := by
    refine le_trans hc3 ?_
    rw [e1, q1]; exact min_le_left _ _
  have hc6 : qmin r3.2.1 ≤ qmin (evalFitness fit XP1 cfg.N) := by
    refine le_trans hc3 ?_
    rw [e1, q1]; exact min_le_right _ _
  refine ⟨e3, ?_, ?_, ?_, ?_, ?_, ?_⟩
  · rw [hr3, length_updateImproved_pop, hr2, length_updateImproved_pop,
      hr1, length_updateImproved_pop]
  · rw [hp1, hp2, hp3]; rfl
  · intro P hP
    rw [hp1, hp2, hp3] at hP
    simp only [List.cons_append, List.nil_append, List.mem_cons,
      List.not_mem_nil, or_false] at hP
    rcases hP with h | h | h | h | h | h <;>
      (rw [h]; exact length_evalFitness _ _ _)
  · rw [hp1, hp2, hp3]
    simp
  · intro P hP
    rw [hp1, hp2, hp3] at hP
    simp only [List.cons_append, List.nil_append, List.mem_cons,
      List.not_mem_nil, or_false] at hP
    rcases hP with h | h | h | h | h | h <;> rw [h]
    · exact hc5
    · exact hc6
    · exact hc3
    · exact hc4
    · exact hc1
    · exact hc2
  · rcases min_choice (qmin (evalFitness fit r2.1 cfg.N))
        (qmin (evalFitness fit XP3 cfg.N)) with h | h
    · refine ⟨evalFitness fit r2.1 cfg.N, ?_, ?_⟩
      · rw [hp1, hp2, hp3]; simp
      · rw [q3, h]
    · refine ⟨evalFitness fit XP3 cfg.N, ?_, ?_⟩
      · rw [hp1, hp2, hp3]; simp
      · rw [q3, h]

/-- The overall-minimum invariant: through the loop, the minimum over every
fitness value observed so far equals the minimum of re-evaluating the current
population. -/
theorem loop_min_invariant (cfg : Cfg) (env : Env) (fit : Candidate → ℚ)
    (hn : 0 < cfg.N) : ∀ (fuel gen : ℕ) (F : List ℚ) (best : ℚ)
    (acc : LoopAcc),
    acc.passes.flatten ≠ [] →
    qmin acc.passes.flatten = qmin (evalFitness fit acc.pop cfg.N) →
    (loop cfg env fit fuel gen F best acc).passes.flatten ≠ [] ∧
    qmin (loop cfg env fit fuel gen F best acc).passes.flatten =
      qmin (evalFitness fit (loop cfg env fit fuel gen F best acc).pop cfg.N) := by
  intro fuel
  induction fuel with
  | zero => intro gen F best acc h1 h2; exact ⟨h1, h2⟩
  | succ m ih =>
    intro gen F best acc h1 h2
    rw [loop]
    by_cases hg : cfg.fitness_limit < best ∧ (gen : ℤ) ≤ cfg.generation_limit
    · rw [if_pos hg]
      obtain ⟨e3, -, -, hlen6, hfirst, hall, hex⟩ :=
        generation_facts cfg env fit gen acc.pop F hn
      set g := generation cfg env fit gen acc.pop F with hgen
      refine ih (gen + 1) g.2.1 (qmin g.2.1) _ ?_ ?_
      · simp only [List.flatten_append]
        intro hc
        exact h1 (List.append_eq_nil.mp hc).1
      · simp only [List.flatten_append]
        rw [e3]
        apply le_antisymm
        · obtain ⟨P, hP, hPq⟩ := hex
          have hPne : P ≠ [] := by
            intro hc
            have := hlen6 P hP
            rw [hc] at this
            simp at this
            omega
          refine le_trans (qmin_le_mem _ (qmin P) ?_) (le_of_eq hPq)
          exact List.mem_append_right _
            (List.mem_flatten.mpr ⟨P, hP, qmin_mem P hPne⟩)
        · refine qmin_le_of_forall _ _ ?_ ?_
          · intro hc
            exact h1 (List.append_eq_nil.mp hc).1
          · intro b hb
            rcases List.mem_append.mp hb with hold | hnew
            · refine le_trans (hall _ hfirst) ?_
              rw [← h2]
              exact qmin_le_mem _ b hold
            · obtain ⟨P, hP, hbP⟩ := List.mem_flatten.mp hnew
              exact le_trans (hall P hP) (qmin_le_mem P b hbP)
    · rw [if_neg hg]
      exact ⟨h1, h2⟩

/-- Exact loop counts when the fitness threshold can never stop the run:
`fuel` more generations run, each contributing six evaluation passes and one
best-fitness record. -/
theorem loop_counts (cfg : Cfg) (env : Env) (fit : Candidate → ℚ)
    (hn : 0 < cfg.N) (hstop : ∀ c : Candidate, cfg.fitness_limit < fit c) :
    ∀ (fuel gen : ℕ) (F : List ℚ) (Y : Pop) (acc : LoopAcc),
    (fuel : ℤ) = cfg.generation_limit + 1 - gen →
    (loop cfg env fit fuel gen F (qmin (evalFitness fit Y cfg.N)) acc).passes.length =
      acc.passes.length + 6 * fuel ∧
    (loop cfg env fit fuel gen F (qmin (evalFitness fit Y cfg.N)) acc).bests.length =
      acc.bests.length + fuel := by
  intro fuel
  induction fuel with
  | zero => intro gen F Y acc _; exact ⟨rfl, rfl⟩
  | succ m ih =>
    intro gen F Y acc hfuel
    rw [loop]
    have hg : cfg.fitness_limit < qmin (evalFitness fit Y cfg.N) ∧
        (gen : ℤ) ≤ cfg.generation_limit := by
      refine ⟨qmin_eval_gt fit _ _ hn hstop Y, ?_⟩
      have : ((m : ℤ) + 1) = cfg.generation_limit + 1 - gen := by
        exact_mod_cast hfuel
      omega
    rw [if_pos hg]
    obtain ⟨e3, -, hlen6, -, -, -, -⟩ :=
      generation_facts cfg env fit gen acc.pop F hn
    set g := generation cfg env fit gen acc.pop F with hgen
    have hb : qmin g.2.1 = qmin (evalFitness fit g.1 cfg.N) := by rw [e3]
    rw [hb]
    obtain ⟨hp, hbs⟩ := ih (gen + 1) g.2.1 g.1 _ (by push_cast; push_cast at hfuel; omega)
    constructor
    · rw [hp]
      simp only [List.length_append, hlen6]
      omega
    · rw [hbs]
      simp only [List.length_append, List.length_cons, List.length_nil]
      omega

/-- More fuel than the generation guard allows changes nothing. -/
theorem loop_fuel_inv (cfg : Cfg) (env : Env) (fit : Candidate → ℚ) :
    ∀ (fuel extra gen : ℕ) (F : List ℚ) (best : ℚ) (acc : LoopAcc),
    cfg.generation_limit + 1 ≤ (gen : ℤ) + fuel →
    loop cfg env fit (fuel + extra) gen F best acc =
      loop cfg env fit fuel gen F best acc := by
  intro fuel
  induction fuel with
  | zero =>
    intro extra gen F best acc h
    cases extra with
    | zero => rfl
    | succ e =>
      have h0 : 0 + (e + 1) = e + 1 := by omega
      have hng : ¬ (cfg.fitness_limit < best ∧
          (gen : ℤ) ≤ cfg.generation_limit) := by
        intro hc
        have h2 := hc.2
        omega
      rw [h0, loop]
      rw [loop, if_neg hng]
  | succ m ih =>
    intro extra gen F best acc h
    have hshow : m + 1 + extra = (m + extra) + 1 := by omega
    rw [hshow, loop, loop]
    by_cases hg : cfg.fitness_limit < best ∧ (gen : ℤ) ≤ cfg.generation_limit
    · rw [if_pos hg, if_pos hg]
      apply ih
      push_cast
      push_cast at h
      omega
    · rw [if_neg hg, if_neg hg]

theorem loop_bests_le (cfg : Cfg) (env : Env) (fit : Candidate → ℚ) :
    ∀ (fuel gen : ℕ) (F : List ℚ) (best : ℚ) (acc : LoopAcc),
    (loop cfg env fit fuel gen F best acc).bests.length ≤
      acc.bests.length + fuel := by
  intro fuel
  induction fuel with
  | zero => intro gen F best acc; exact Nat.le_refl _
  | succ m ih =>
    intro gen F best acc
    rw [loop]
    by_cases hg : cfg.fitness_limit < best ∧ (gen : ℤ) ≤ cfg.generation_limit
    · rw [if_pos hg]
      refine le_trans (ih _ _ _ _) ?_
      simp only [List.length_append, List.length_cons, List.length_nil]
      omega
    · rw [if_neg hg]
      omega

/-- Every best-fitness record except possibly the last one was strictly above
the threshold: the loop head re-checks the previous record before running
another generation. -/
theorem loop_stop_prop (cfg : Cfg) (env : Env) (fit : Candidate → ℚ) :
    ∀ (fuel gen : ℕ) (F : List ℚ) (best : ℚ) (acc : LoopAcc),
    (∀ k, k + 1 < acc.bests.length →
      cfg.fitness_limit < (acc.bests.getD k (0, 0)).2) →
    (∀ p, acc.bests.getLast? = some p → p.2 = best) →
    ∀ k, k + 1 < (loop cfg env fit fuel gen F best acc).bests.length →
      cfg.fitness_limit <
        ((loop cfg env fit fuel gen F best acc).bests.getD k (0, 0)).2 := by
  intro fuel
  induction fuel with
  | zero => intro gen F best acc hall _ k hk; exact hall k hk
  | succ m ih =>
    intro gen F best acc hall hlink
    rw [loop]
    by_cases hg : cfg.fitness_limit < best ∧ (gen : ℤ) ≤ cfg.generation_limit
    · rw [if_pos hg]
      set g := generation cfg env fit gen acc.pop F with hgen
      refine ih (gen + 1) g.2.1 (qmin g.2.1) _ ?_ ?_
      · intro k hk
        simp only [List.length_append, List.length_cons, List.length_nil] at hk
        by_cases hlt : k + 1 < acc.bests.length
        · have hgd : (acc.bests ++ [(gen, qmin g.2.1)]).getD k (0, 0) =
              acc.bests.getD k (0, 0) := by
            rw [List.getD_eq_getElem?_getD, List.getD_eq_getElem?_getD,
              List.getElem?_append_left (by omega)]
          simp only
          rw [hgd]
          exact hall k hlt
        · have hk2 : k + 1 = acc.bests.length := by omega
          have hne : acc.bests ≠ [] := by
            intro hc
            rw [hc] at hk2
            simp at hk2
          have hgd : (acc.bests ++ [(gen, qmin g.2.1)]).getD k (0, 0) =
              acc.bests.getD k (0, 0) := by
            rw [List.getD_eq_getElem?_getD, List.getD_eq_getElem?_getD,
              List.getElem?_append_left (by omega)]
          simp only
          rw [hgd]
          have hlast : acc.bests.getLast? = acc.bests[k]? := by
            rw [List.getLast?_eq_getElem?]
            congr 1
            omega
          obtain ⟨p, hp⟩ := List.getLast?_isSome.mpr hne |> Option.isSome_iff_exists.mp
          have hpk : acc.bests.getD k (0, 0) = p := by
            rw [List.getD_eq_getElem?_getD, ← hlast, hp]
            rfl
          rw [hpk, hlink p hp]
          exact hg.1
      · intro p hp
        simp only at hp
        rw [List.getLast?_concat] at hp
        cases hp
        rfl
    · rw [if_neg hg]
      intro k hk
      exact hall k hk

end Stbo

namespace Stbo

theorem run_elim (cfg : Cfg) (env : Env) (fit : Candidate → ℚ)
    (res : RunResult) (h : run cfg env fit = some res) :
    ∃ X0, eq2 cfg env = some X0 ∧
      res = finish cfg fit
        (loop cfg env fit (cfg.generation_limit + 1).toNat 0
          (evalFitness fit X0 cfg.N) (qmin (evalFitness fit X0 cfg.N))
          ⟨X0, [evalFitness fit X0 cfg.N], [], [], 0⟩) := by
  unfold run runFuel at h
  obtain ⟨X0, hX0, hres⟩ := Option.map_eq_some'.mp h
  exact ⟨X0, hX0, hres.symm⟩

theorem eq2_WF (cfg : Cfg) (env : Env) (X0 : Pop) (h : eq2 cfg env = some X0) :
    WF cfg.shapes cfg.N X0 := by
  unfold eq2 at h
  by_cases ht : cfg.transfer_learning
  · rw [if_pos ht] at h
    unfold createPopulation at h
    by_cases hc : cfg.population_size ≤ 0 ∨ cfg.shapes.isEmpty
    · rw [if_pos hc] at h; cases h
    · rw [if_neg hc] at h
      rw [← Option.some.inj h]
      exact WF_mkPop _ _ _
  · rw [if_neg ht] at h
    rw [← Option.some.inj h]
    exact WF_mkPop _ _ _

theorem loop_WF (shapes : List ℕ) (cfg : Cfg) (env : Env)
    (fit : Candidate → ℚ) : ∀ (fuel gen : ℕ) (F : List ℚ) (best : ℚ)
    (acc : LoopAcc), WF shapes cfg.N acc.pop →
    WF shapes cfg.N (loop cfg env fit fuel gen F best acc).pop := by
  intro fuel
  induction fuel with
  | zero => intro gen F best acc hW; exact hW
  | succ m ih =>
    intro gen F best acc hW
    rw [loop]
    by_cases hg : cfg.fitness_limit < best ∧ (gen : ℤ) ≤ cfg.generation_limit
    · rw [if_pos hg]
      exact ih _ _ _ _ (WF_generation shapes cfg env fit gen acc.pop F hW)
    · rw [if_neg hg]
      exact hW

theorem run_WF (cfg : Cfg) (env : Env) (fit : Candidate → ℚ)
    (res : RunResult) (h : run cfg env fit = some res) :
    WF cfg.shapes cfg.N res.pop := by
  obtain ⟨X0, hX0, hres⟩ := run_elim cfg env fit res h
  rw [hres]
  unfold finish
  exact loop_WF cfg.shapes cfg env fit _ _ _ _ _ (eq2_WF cfg env X0 hX0)

theorem run_applied_min (cfg : Cfg) (env : Env) (fit : Candidate → ℚ)
    (hpop : 0 < cfg.population_size) (res : RunResult)
    (h : run cfg env fit = some res) :
    fit res.applied = qmin res.passes.flatten := by
  obtain ⟨X0, hX0, hres⟩ := run_elim cfg env fit res h
  have hn : 0 < cfg.N := by unfold Cfg.N; omega
  obtain ⟨hne, hinv⟩ := loop_min_invariant cfg env fit hn
    (cfg.generation_limit + 1).toNat 0 (evalFitness fit X0 cfg.N)
    (qmin (evalFitness fit X0 cfg.N))
    ⟨X0, [evalFitness fit X0 cfg.N], [], [], 0⟩
    (by simpa using evalFitness_ne_nil fit X0 cfg.N hn)
    (by simp)
  rw [hres]
  unfold finish applyBestSolution
  simp only
  set acc := loop cfg env fit (cfg.generation_limit + 1).toNat 0
    (evalFitness fit X0 cfg.N) (qmin (evalFitness fit X0 cfg.N))
    ⟨X0, [evalFitness fit X0 cfg.N], [], [], 0⟩ with hacc
  have hEne : evalFitness fit acc.pop cfg.N ≠ [] :=
    evalFitness_ne_nil _ _ _ hn
  have hlt : argminIdx (evalFitness fit acc.pop cfg.N) < cfg.N := by
    have h2 := argminIdx_lt _ hEne
    rwa [length_evalFitness] at h2
  rw [← getD_evalFitness fit acc.pop cfg.N _ hlt, getD_argminIdx _ hEne, hinv]

theorem loop_bests_mono (cfg : Cfg) (env : Env) (fit : Candidate → ℚ)
    (hn : 0 < cfg.N) : ∀ (fuel gen : ℕ) (F : List ℚ) (best : ℚ)
    (acc : LoopAcc),
    qmin (evalFitness fit acc.pop cfg.N) ≤ best →
    (∀ k, k + 1 < acc.bests.length →
      (acc.bests.getD (k + 1) (0, 0)).2 ≤ (acc.bests.getD k (0, 0)).2) →
    (∀ p, acc.bests.getLast? = some p → best ≤ p.2) →
    ∀ k, k + 1 < (loop cfg env fit fuel gen F best acc).bests.length →
      ((loop cfg env fit fuel gen F best acc).bests.getD (k + 1) (0, 0)).2 ≤
      ((loop cfg env fit fuel gen F best acc).bests.getD k (0, 0)).2 := by
  intro fuel
  induction fuel with
  | zero => intro gen F best acc _ hmono _ k hk; exact hmono k hk
  | succ m ih =>
    intro gen F best acc hbest hmono hlink
    rw [loop]
    by_cases hg : cfg.fitness_limit < best ∧ (gen : ℤ) ≤ cfg.generation_limit
    · rw [if_pos hg]
      obtain ⟨e3, -, -, -, hfirst, hall, -⟩ :=
        generation_facts cfg env fit gen acc.pop F hn
      set g := generation cfg env fit gen acc.pop F with hgen
      have hq : qmin g.2.1 ≤ qmin (evalFitness fit acc.pop cfg.N) :=
        hall _ hfirst
      refine ih (gen + 1) g.2.1 (qmin g.2.1) _ (le_of_eq (congrArg qmin e3)) ?_ ?_
      · intro k hk
        simp only [List.length_append, List.length_cons, List.length_nil] at hk
        by_cases hlt : k + 1 + 1 ≤ acc.bests.length
        · have hg1 : (acc.bests ++ [(gen, qmin g.2.1)]).getD (k + 1) (0, 0) =
              acc.bests.getD (k + 1) (0, 0) := by
            rw [List.getD_eq_getElem?_getD, List.getD_eq_getElem?_getD,
              List.getElem?_append_left (by omega)]
          have hg2 : (acc.bests ++ [(gen, qmin g.2.1)]).getD k (0, 0) =
              acc.bests.getD k (0, 0) := by
            rw [List.getD_eq_getElem?_getD, List.getD_eq_getElem?_getD,
              List.getElem?_append_left (by omega)]
          simp only
          rw [hg1, hg2]
          exact hmono k (by omega)
        · have hk2 : k + 1 = acc.bests.length := by omega
          have hne : acc.bests ≠ [] := by
            intro hc
            rw [hc] at hk2
            simp at hk2
          have hg1 : (acc.bests ++ [(gen, qmin g.2.1)]).getD (k + 1) (0, 0) =
              (gen, qmin g.2.1) := by
            rw [List.getD_eq_getElem?_getD, hk2,
              List.getElem?_concat_length]
            rfl
          have hg2 : (acc.bests ++ [(gen, qmin g.2.1)]).getD k (0, 0) =
              acc.bests.getD k (0, 0) := by
            rw [List.getD_eq_getElem?_getD, List.getD_eq_getElem?_getD,
              List.getElem?_append_left (by omega)]
          simp only
          rw [hg1, hg2]
          obtain ⟨p, hp⟩ :=
            Option.isSome_iff_exists.mp (List.getLast?_isSome.mpr hne)
          have hlast : acc.bests.getLast? = acc.bests[k]? := by
            rw [List.getLast?_eq_getElem?]
            congr 1
            omega
          have hpk : acc.bests.getD k (0, 0) = p := by
            rw [List.getD_eq_getElem?_getD, ← hlast, hp]
            rfl
          rw [hpk]
          calc (qmin g.2.1) ≤ qmin (evalFitness fit acc.pop cfg.N) := hq
            _ ≤ best := hbest
            _ ≤ p.2 := hlink p hp
      · intro p hp
        simp only at hp
        rw [List.getLast?_concat] at hp
        cases hp
        rfl
    · rw [if_neg hg]
      intro k hk
      exact hmono k hk

theorem run_bests_mono (cfg : Cfg) (env : Env) (fit : Candidate → ℚ)
    (hpop : 0 < cfg.population_size) (res : RunResult)
    (h : run cfg env fit = some res) :
    ∀ k, k + 1 < res.bests.length →
      (res.bests.getD (k + 1) (0, 0)).2 ≤ (res.bests.getD k (0, 0)).2 := by
  obtain ⟨X0, hX0, hres⟩ := run_elim cfg env fit res h
  have hn : 0 < cfg.N := by unfold Cfg.N; omega
  rw [hres]
  unfold finish
  simp only
  exact loop_bests_mono cfg env fit hn _ 0 _ _ _ (le_refl _)
    (by intro k hk; simp at hk) (by intro p hp; simp at hp)

theorem run_counts (cfg : Cfg) (env : Env) (fit : Candidate → ℚ)
    (hpop : 0 < cfg.population_size)
    (hstop : ∀ c : Candidate, cfg.fitness_limit < fit c) (res : RunResult)
    (h : run cfg env fit = some res) :
    res.passes.length = 1 + 6 * (cfg.generation_limit + 1).toNat ∧
    res.bests.length = (cfg.generation_limit + 1).toNat := by
  obtain ⟨X0, hX0, hres⟩ := run_elim cfg env fit res h
  have hn : 0 < cfg.N := by unfold Cfg.N; omega
  rw [hres]
  unfold finish
  simp only
  by_cases hT : 0 ≤ cfg.generation_limit + 1
  · have hfuel : (((cfg.generation_limit + 1).toNat : ℕ) : ℤ) =
        cfg.generation_limit + 1 - ((0 : ℕ) : ℤ) := by
      omega
    obtain ⟨hp, hb⟩ := loop_counts cfg env fit hn hstop
      (cfg.generation_limit + 1).toNat 0 (evalFitness fit X0 cfg.N) X0
      ⟨X0, [evalFitness fit X0 cfg.N], [], [], 0⟩ hfuel
    constructor
    · rw [hp]
      simp
    · rw [hb]
      simp
  · have h0 : (cfg.generation_limit + 1).toNat = 0 := by omega
    rw [h0]
    exact ⟨rfl, rfl⟩

theorem run_endFlags (cfg : Cfg) (env : Env) (fit : Candidate → ℚ)
    (res : RunResult) (h : run cfg env fit = some res) :
    (res.endLog = true ↔ 0 < cfg.fitness_log_frequency) ∧
    (res.endSave = true ↔ 0 < cfg.best_individual_save_frequency) := by
  obtain ⟨X0, hX0, hres⟩ := run_elim cfg env fit res h
  rw [hres]
  unfold finish
  constructor
  · by_cases hc : 0 < cfg.fitness_log_frequency
    · simp [hc]
    · simp [hc]
  · by_cases hc : 0 < cfg.best_individual_save_frequency
    · simp [hc]
    · simp [hc]

theorem run_bests_bound (cfg : Cfg) (env : Env) (fit : Candidate → ℚ)
    (res : RunResult) (h : run cfg env fit = some res) :
    res.bests.length ≤ (cfg.generation_limit + 1).toNat := by
  obtain ⟨X0, hX0, hres⟩ := run_elim cfg env fit res h
  rw [hres]
  unfold finish
  simp only
  have h2 := loop_bests_le cfg env fit (cfg.generation_limit + 1).toNat 0
    (evalFitness fit X0 cfg.N) (qmin (evalFitness fit X0 cfg.N))
    ⟨X0, [evalFitness fit X0 cfg.N], [], [], 0⟩
  simpa using h2

theorem run_fuel_inv (cfg : Cfg) (env : Env) (fit : Candidate → ℚ)
    (extra : ℕ) :
    runFuel cfg env fit ((cfg.generation_limit + 1).toNat + extra) =
      run cfg env fit := by
  unfold run runFuel
  have hf : (fun X0 => finish cfg fit
      (loop cfg env fit ((cfg.generation_limit + 1).toNat + extra) 0
        (evalFitness fit X0 cfg.N) (qmin (evalFitness fit X0 cfg.N))
        ⟨X0, [evalFitness fit X0 cfg.N], [], [], 0⟩)) =
      (fun X0 => finish cfg fit
      (loop cfg env fit ((cfg.generation_limit + 1).toNat) 0
        (evalFitness fit X0 cfg.N) (qmin (evalFitness fit X0 cfg.N))
        ⟨X0, [evalFitness fit X0 cfg.N], [], [], 0⟩)) := by
    funext X0
    refine congrArg (finish cfg fit) ?_
    refine loop_fuel_inv cfg env fit _ extra 0 _ _ _ ?_
    push_cast
    omega
  rw [hf]

theorem run_stop_prop (cfg : Cfg) (env : Env) (fit : Candidate → ℚ)
    (res : RunResult) (h : run cfg env fit = some res) :
    ∀ k, k + 1 < res.bests.length →
      cfg.fitness_limit < (res.bests.getD k (0, 0)).2 := by
  obtain ⟨X0, hX0, hres⟩ := run_elim cfg env fit res h
  rw [hres]
  unfold finish
  simp only
  exact loop_stop_prop cfg env fit _ 0 _ _ _
    (by intro k hk; simp at hk) (by intro p hp; simp at hp)

end Stbo

theorem createPopulation_WF (shapes : List ℕ) (n : ℤ) (lb ub : ℚ)
    (transfer : Bool) (initU perturb : ℕ → ℕ → ℕ → ℚ) (target : List Slot)
    (pop0 : Pop)
    (h : createPopulation shapes n lb ub transfer initU perturb target =
      some pop0) : WF shapes n.toNat pop0 ∧ 0 < n := by
  unfold createPopulation at h
  by_cases hc : n ≤ 0 ∨ shapes.isEmpty
  · rw [if_pos hc] at h; cases h
  · rw [if_neg hc] at h
    push_neg at hc
    refine ⟨?_, by omega⟩
    rw [← Option.some.inj h]
    exact WF_mkPop _ _ _

namespace Avoa

theorem WF_indivStep (shapes : List ℕ) (O : RealOps) (cfg : Cfg) (d : Draws)
    (gen : ℕ) (bv : List (Slot × Slot)) (X : Pop) (i : ℕ)
    (h : WF shapes cfg.N X) (hi : i < cfg.N) :
    WF shapes cfg.N (indivStep O cfg d gen bv X i) := by
  have hgen : ∀ f : ℕ → ℕ → ℚ,
      WF shapes cfg.N (setCand X i (mapCand (candidateOf X i) f)) := by
    intro f
    refine WF_setCand shapes cfg.N X i _ h ?_
    intro s hs
    rw [length_getD_mapCand _ _ s (by rw [length_candidateOf]; exact hs)]
    rw [getD_candidateOf X i s hs]
    exact WF_elt_length shapes cfg.N X h s i hs hi
  simp only [indivStep, eq6c, eq8c, eq10c, eq13c, eq16c, eq17c]
  split
  · split
    · exact hgen _
    · exact hgen _
  · split
    · split
      · exact hgen _
      · exact hgen _
    · split
      · exact hgen _
      · exact hgen _

theorem WF_foldl_indiv (shapes : List ℕ) (O : RealOps) (cfg : Cfg) (env : Env)
    (gen : ℕ) (bv : List (Slot × Slot)) :
    ∀ (l : List ℕ) (X : Pop), (∀ i ∈ l, i < cfg.N) → WF shapes cfg.N X →
    WF shapes cfg.N
      (l.foldl (fun Y i => indivStep O cfg (env.draws gen i) gen bv Y i) X) := by
  intro l
  induction l with
  | nil => intro X _ hW; exact hW
  | cons j rest ih =>
    intro X hl hW
    simp only [List.foldl_cons]
    refine ih _ (fun i hi => hl i (List.mem_cons_of_mem j hi)) ?_
    exact WF_indivStep shapes O cfg _ gen bv X j hW
      (hl j (List.mem_cons_self j rest))

theorem WF_sweep (shapes : List ℕ) (O : RealOps) (cfg : Cfg) (env : Env)
    (gen : ℕ) (bv : List (Slot × Slot)) (X : Pop) (h : WF shapes cfg.N X) :
    WF shapes cfg.N (sweep O cfg env gen bv X) := by
  unfold sweep sweepTo
  exact WF_foldl_indiv shapes O cfg env gen bv (List.range cfg.N) X
    (fun i hi => List.mem_range.mp hi) h

theorem aloop_WF (shapes : List ℕ) (O : RealOps) (cfg : Cfg) (env : Env)
    (fit : Candidate → ℚ) : ∀ (fuel gen : ℕ) (acc : LoopAcc),
    WF shapes cfg.N acc.pop →
    WF shapes cfg.N (loop O cfg env fit fuel gen acc).pop := by
  intro fuel
  induction fuel with
  | zero => intro gen acc hW; exact hW
  | succ m ih =>
    intro gen acc hW
    rw [loop]
    by_cases hg : (gen : ℤ) ≤ cfg.generation_limit
    · rw [if_pos hg]
      by_cases hb : qmin (evalFitness fit acc.pop cfg.N) < cfg.fitness_limit
      · rw [if_pos hb]
        exact hW
      · rw [if_neg hb]
        exact ih _ _ (WF_sweep shapes O cfg env gen _ acc.pop hW)
    · rw [if_neg hg]
      exact hW

theorem aloop_counts (O : RealOps) (cfg : Cfg) (env : Env)
    (fit : Candidate → ℚ) (hn : 0 < cfg.N)
    (hstop : ∀ c : Candidate, ¬ (fit c < cfg.fitness_limit)) :
    ∀ (fuel gen : ℕ) (acc : LoopAcc),
    (fuel : ℤ) = cfg.generation_limit + 1 - gen →
    (loop O cfg env fit fuel gen acc).passes.length =
      acc.passes.length + fuel ∧
    (loop O cfg env fit fuel gen acc).bests.length =
      acc.bests.length + fuel := by
  intro fuel
  induction fuel with
  | zero => intro gen acc _; exact ⟨rfl, rfl⟩
  | succ m ih =>
    intro gen acc hfuel
    rw [loop]
    have hg : (gen : ℤ) ≤ cfg.generation_limit := by
      have h2 : ((m : ℤ) + 1) = cfg.generation_limit + 1 - gen := by
        exact_mod_cast hfuel
      omega
    rw [if_pos hg]
    have hb : ¬ qmin (evalFitness fit acc.pop cfg.N) < cfg.fitness_limit := by
      obtain ⟨c, hc⟩ := qmin_evalFitness_is_value fit acc.pop cfg.N hn
      rw [hc]
      exact hstop c
    rw [if_neg hb]
    obtain ⟨hp, hbs⟩ := ih (gen + 1) _ (by push_cast; push_cast at hfuel; omega)
    constructor
    · rw [hp]
      simp only [List.length_append, List.length_cons, List.length_nil]
      omega
    · rw [hbs]
      simp only [List.length_append, List.length_cons, List.length_nil]
      omega

theorem aloop_fuel_inv (O : RealOps) (cfg : Cfg) (env : Env)
    (fit : Candidate → ℚ) : ∀ (fuel extra gen : ℕ) (acc : LoopAcc),
    cfg.generation_limit + 1 ≤ (gen : ℤ) + fuel →
    loop O cfg env fit (fuel + extra) gen acc =
      loop O cfg env fit fuel gen acc := by
  intro fuel
  induction fuel with
  | zero =>
    intro extra gen acc h
    cases extra with
    | zero => rfl
    | succ e =>
      have h0 : 0 + (e + 1) = e + 1 := by omega
      have hng : ¬ ((gen : ℤ) ≤ cfg.generation_limit) := by omega
      rw [h0, loop]
      rw [loop, if_neg hng]
  | succ m ih =>
    intro extra gen acc h
    have hshow : m + 1 + extra = (m + extra) + 1 := by omega
    rw [hshow, loop, loop]
    by_cases hg : (gen : ℤ) ≤ cfg.generation_limit
    · rw [if_pos hg, if_pos hg]
      by_cases hb : qmin (evalFitness fit acc.pop cfg.N) < cfg.fitness_limit
      · rw [if_pos hb, if_pos hb]
      · rw [if_neg hb, if_neg hb]
        apply ih
        push_cast
        push_cast at h
        omega
    · rw [if_neg hg, if_neg hg]

theorem aloop_bests_le (O : RealOps) (cfg : Cfg) (env : Env)
    (fit : Candidate → ℚ) : ∀ (fuel gen : ℕ) (acc : LoopAcc),
    (loop O cfg env fit fuel gen acc).bests.length ≤
      acc.bests.length + fuel := by
  intro fuel
  induction fuel with
  | zero => intro gen acc; exact Nat.le_refl _
  | succ m ih =>
    intro gen acc
    rw [loop]
    by_cases hg : (gen : ℤ) ≤ cfg.generation_limit
    · rw [if_pos hg]
      by_cases hb : qmin (evalFitness fit acc.pop cfg.N) < cfg.fitness_limit
      · rw [if_pos hb]
        simp only [List.length_append, List.length_cons, List.length_nil]
        omega
      · rw [if_neg hb]
        refine le_trans (ih _ _) ?_
        simp only [List.length_append, List.length_cons, List.length_nil]
        omega
    · rw [if_neg hg]
      omega

theorem aloop_stop_prop (O : RealOps) (cfg : Cfg) (env : Env)
    (fit : Candidate → ℚ) : ∀ (fuel gen : ℕ) (acc : LoopAcc),
    (∀ k, k < acc.bests.length →
      ¬ (acc.bests.getD k (0, 0)).2 < cfg.fitness_limit) →
    ∀ k, k + 1 < (loop O cfg env fit fuel gen acc).bests.length →
      ¬ ((loop O cfg env fit fuel gen acc).bests.getD k (0, 0)).2 <
        cfg.fitness_limit := by
  intro fuel
  induction fuel with
  | zero =>
    intro gen acc hall k hk
    have hk2 : k + 1 < acc.bests.length := hk
    exact hall k (by omega)
  | succ m ih =>
    intro gen acc hall
    rw [loop]
    by_cases hg : (gen : ℤ) ≤ cfg.generation_limit
    · rw [if_pos hg]
      by_cases hb : qmin (evalFitness fit acc.pop cfg.N) < cfg.fitness_limit
      · rw [if_pos hb]
        intro k hk
        simp only [List.length_append, List.length_cons, List.length_nil] at hk
        have hgd : (acc.bests ++
            [(gen, qmin (evalFitness fit acc.pop cfg.N))]).getD k (0, 0) =
            acc.bests.getD k (0, 0) := by
          rw [List.getD_eq_getElem?_getD, List.getD_eq_getElem?_getD,
            List.getElem?_append_left (by omega)]
        simp only
        rw [hgd]
        exact hall k (by omega)
      · rw [if_neg hb]
        refine ih (gen + 1) _ ?_
        intro k hk
        simp only [List.length_append, List.length_cons, List.length_nil] at hk
        by_cases hlt : k < acc.bests.length
        · have hgd : (acc.bests ++
              [(gen, qmin (evalFitness fit acc.pop cfg.N))]).getD k (0, 0) =
              acc.bests.getD k (0, 0) := by
            rw [List.getD_eq_getElem?_getD, List.getD_eq_getElem?_getD,
              List.getElem?_append_left (by omega)]
          simp only
          rw [hgd]
          exact hall k hlt
        · have hk2 : k = acc.bests.length := by omega
          have hgd : (acc.bests ++
              [(gen, qmin (evalFitness fit acc.pop cfg.N))]).getD k (0, 0) =
              (gen, qmin (evalFitness fit acc.pop cfg.N)) := by
            rw [List.getD_eq_getElem?_getD, hk2, List.getElem?_concat_length]
            rfl
          simp only
          rw [hgd]
          exact hb
    · rw [if_neg hg]
      intro k hk
      exact hall k (by omega)

theorem arun_elim (O : RealOps) (cfg : Cfg) (env : Env) (fit : Candidate → ℚ)
    (res : RunResult) (h : run O cfg env fit = some res) :
    ∃ pop0, createPopulation cfg.shapes cfg.population_size cfg.lb cfg.ub
        cfg.transfer_learning env.initU env.perturb env.target = some pop0 ∧
      res = finish cfg fit
        (loop O cfg env fit (cfg.generation_limit + 1).toNat 0
          ⟨pop0, [], [], [], 0⟩) := by
  unfold run runFuel at h
  obtain ⟨pop0, hpop0, hres⟩ := Option.map_eq_some'.mp h
  exact ⟨pop0, hpop0, hres.symm⟩

theorem arun_WF (O : RealOps) (cfg : Cfg) (env : Env) (fit : Candidate → ℚ)
    (res : RunResult) (h : run O cfg env fit = some res) :
    WF cfg.shapes cfg.N res.pop := by
  obtain ⟨pop0, hpop0, hres⟩ := arun_elim O cfg env fit res h
  rw [hres]
  unfold finish
  exact aloop_WF cfg.shapes O cfg env fit _ _ _
    (createPopulation_WF _ _ _ _ _ _ _ _ _ hpop0).1

theorem run_pop_pos (O : RealOps) (cfg : Cfg) (env : Env)
    (fit : Candidate → ℚ) (res : RunResult)
    (h : run O cfg env fit = some res) : 0 < cfg.N := by
  obtain ⟨pop0, hpop0, -⟩ := arun_elim O cfg env fit res h
  have h2 := (createPopulation_WF _ _ _ _ _ _ _ _ _ hpop0).2
  unfold Cfg.N
  omega

theorem arun_counts (O : RealOps) (cfg : Cfg) (env : Env)
    (fit : Candidate → ℚ)
    (hstop : ∀ c : Candidate, ¬ (fit c < cfg.fitness_limit))
    (res : RunResult) (h : run O cfg env fit = some res) :
    res.passes.length = (cfg.generation_limit + 1).toNat ∧
    res.bests.length = (cfg.generation_limit + 1).toNat := by
  have hn := run_pop_pos O cfg env fit res h
  obtain ⟨pop0, hpop0, hres⟩ := arun_elim O cfg env fit res h
  rw [hres]
  unfold finish
  simp only
  by_cases hT : 0 ≤ cfg.generation_limit + 1
  · have hfuel : (((cfg.generation_limit + 1).toNat : ℕ) : ℤ) =
        cfg.generation_limit + 1 - ((0 : ℕ) : ℤ) := by
      omega
    obtain ⟨hp, hb⟩ := aloop_counts O cfg env fit hn hstop
      (cfg.generation_limit + 1).toNat 0 ⟨pop0, [], [], [], 0⟩ hfuel
    constructor
    · rw [hp]
      simp
    · rw [hb]
      simp
  · have h0 : (cfg.generation_limit + 1).toNat = 0 := by omega
    rw [h0]
    exact ⟨rfl, rfl⟩

theorem arun_endFlags (O : RealOps) (cfg : Cfg) (env : Env)
    (fit : Candidate → ℚ) (res : RunResult)
    (h : run O cfg env fit = some res) :
    (res.endLog = true ↔ 0 < cfg.fitness_log_frequency) ∧
    (res.endSave = true ↔ 0 < cfg.best_individual_save_frequency) := by
  obtain ⟨pop0, hpop0, hres⟩ := arun_elim O cfg env fit res h
  rw [hres]
  unfold finish
  constructor
  · by_cases hc : 0 < cfg.fitness_log_frequency
    · simp [hc]
    · simp [hc]
  · by_cases hc : 0 < cfg.best_individual_save_frequency
    · simp [hc]
    · simp [hc]

theorem arun_bests_bound (O : RealOps) (cfg : Cfg) (env : Env)
    (fit : Candidate → ℚ) (res : RunResult)
    (h : run O cfg env fit = some res) :
    res.bests.length ≤ (cfg.generation_limit + 1).toNat := by
  obtain ⟨pop0, hpop0, hres⟩ := arun_elim O cfg env fit res h
  rw [hres]
  unfold finish
  simp only
  have h2 := aloop_bests_le O cfg env fit (cfg.generation_limit + 1).toNat 0
    ⟨pop0, [], [], [], 0⟩
  simpa using h2

theorem arun_fuel_inv (O : RealOps) (cfg : Cfg) (env : Env)
    (fit : Candidate → ℚ) (extra : ℕ) :
    runFuel O cfg env fit ((cfg.generation_limit + 1).toNat + extra) =
      run O cfg env fit := by
  unfold run runFuel
  have hf : (fun pop0 => finish cfg fit
      (loop O cfg env fit ((cfg.generation_limit + 1).toNat + extra) 0
        ⟨pop0, [], [], [], 0⟩)) =
      (fun pop0 => finish cfg fit
      (loop O cfg env fit ((cfg.generation_limit + 1).toNat) 0
        ⟨pop0, [], [], [], 0⟩)) := by
    funext pop0
    refine congrArg (finish cfg fit) ?_
    refine aloop_fuel_inv O cfg env fit _ extra 0 _ ?_
    push_cast
    omega
  rw [hf]

theorem arun_stop_prop (O : RealOps) (cfg : Cfg) (env : Env)
    (fit : Candidate → ℚ) (res : RunResult)
    (h : run O cfg env fit = some res) :
    ∀ k, k + 1 < res.bests.length →
      ¬ (res.bests.getD k (0, 0)).2 < cfg.fitness_limit := by
  obtain ⟨pop0, hpop0, hres⟩ := arun_elim O cfg env fit res h
  rw [hres]
  unfold finish
  simp only
  exact aloop_stop_prop O cfg env fit _ 0 _
    (by intro k hk; simp at hk)

theorem run_applied_mem (O : RealOps) (cfg : Cfg) (env : Env)
    (fit : Candidate → ℚ) (res : RunResult)
    (h : run O cfg env fit = some res) :
    ∃ i, i < cfg.N ∧ res.applied = candidateOf res.pop i := by
  have hn := run_pop_pos O cfg env fit res h
  obtain ⟨pop0, hpop0, hres⟩ := arun_elim O cfg env fit res h
  rw [hres]
  unfold finish applyBestSolution
  simp only
  refine ⟨argminIdx (evalFitness fit
    (loop O cfg env fit (cfg.generation_limit + 1).toNat 0
      ⟨pop0, [], [], [], 0⟩).pop cfg.N), ?_, rfl⟩
  have hEne : evalFitness fit
      (loop O cfg env fit (cfg.generation_limit + 1).toNat 0
        ⟨pop0, [], [], [], 0⟩).pop cfg.N ≠ [] :=
    evalFitness_ne_nil _ _ _ hn
  have h2 := argminIdx_lt _ hEne
  rwa [length_evalFitness] at h2

theorem run_applied_best (O : RealOps) (cfg : Cfg) (env : Env)
    (fit : Candidate → ℚ) (res : RunResult)
    (h : run O cfg env fit = some res) :
    ∃ i, i < cfg.N ∧ res.applied = candidateOf res.pop i ∧
      fit res.applied = qmin (evalFitness fit res.pop cfg.N) := by
  have hn := run_pop_pos O cfg env fit res h
  obtain ⟨pop0, hpop0, hres⟩ := arun_elim O cfg env fit res h
  rw [hres]
  unfold finish applyBestSolution
  simp only
  set acc := loop O cfg env fit (cfg.generation_limit + 1).toNat 0
    ⟨pop0, [], [], [], 0⟩ with hacc
  have hEne : evalFitness fit acc.pop cfg.N ≠ [] :=
    evalFitness_ne_nil _ _ _ hn
  have hlt : argminIdx (evalFitness fit acc.pop cfg.N) < cfg.N := by
    have h2 := argminIdx_lt _ hEne
    rwa [length_evalFitness] at h2
  refine ⟨argminIdx (evalFitness fit acc.pop cfg.N), hlt, rfl, ?_⟩
  rw [← getD_evalFitness fit acc.pop cfg.N _ hlt, getD_argminIdx _ hEne]

end Avoa

/-
  The claims.
-/

/-- Claim C1 (counterexample): in the concrete `avoa` run with `cfgA`/`envA`
(two scalar individuals starting at 0 and 1/2, two generations, every update
going through eq. 8 at generation 0), the candidate written back into the
target parameter set at termination has fitness 1, while the minimum fitness
observed over all evaluation passes of the run is 0.  So the write-back is not
the best-found candidate of the whole run: `avoa` keeps no record of earlier
candidates, only the live population. -/
theorem claim1_counterexample :
    ((Avoa.run Oz cfgA envA fitA).map fun r =>
      (fitA r.applied, qmin r.passes.flatten)) = some (1, 0) ∧
    (1 : ℚ) ≠ 0 := by
  constructor
  · with_unfolding_all decide
  · with_unfolding_all decide

/-- Claim C1 (amended): for `stbo`, where greedy acceptance makes every
individual fitness non-increasing, the candidate written back at termination
does have fitness equal to the minimum observed over all evaluation passes of
the run; for `avoa`, the written-back candidate is only the best member of the
final live population (by re-evaluated fitness), which generation-0's
counterexample shows need not attain the run minimum. -/
theorem claim1_theorem :
    (∀ (cfg : Stbo.Cfg) (env : Stbo.Env) (fit : Candidate → ℚ)
      (res : RunResult), 0 < cfg.population_size →
      Stbo.run cfg env fit = some res →
      fit res.applied = qmin res.passes.flatten) ∧
    (∀ (O : Avoa.RealOps) (cfg : Avoa.Cfg) (env : Avoa.Env)
      (fit : Candidate → ℚ) (res : RunResult),
      Avoa.run O cfg env fit = some res →
      ∃ i, i < cfg.N ∧ res.applied = candidateOf res.pop i ∧
        fit res.applied = qmin (evalFitness fit res.pop cfg.N)) := by
  constructor
  · intro cfg env fit res hpop h
    exact Stbo.run_applied_min cfg env fit hpop res h
  · intro O cfg env fit res h
    exact Avoa.run_applied_best O cfg env fit res h

/-- Claim C1 (witness): the amended claim evaluated on the concrete runs. -/
theorem claim1_witness :
    fitS resS.applied = qmin resS.passes.flatten ∧
    ∃ i, i < cfgA.N ∧ resA.applied = candidateOf resA.pop i ∧
      fitA resA.applied = qmin (evalFitness fitA resA.pop cfgA.N) := by
  constructor
  · exact claim1_theorem.1 cfgS envS fitS resS (by decide)
      (by with_unfolding_all decide)
  · exact claim1_theorem.2 Oz cfgA envA fitA resA
      (by with_unfolding_all decide)

/-- Claim C2 (counterexample): in the concrete `avoa` run with `cfgA`/`envA`,
the tracked best fitness is 0 at generation 0 and 1 at generation 1 —
`best_fitness` is assigned the current population minimum unconditionally each
generation, so it increases when the unconditionally-overwritten population
worsens. -/
theorem claim2_counterexample :
    ((Avoa.run Oz cfgA envA fitA).map fun r => r.bests.map Prod.snd) =
      some [0, 1] ∧ ¬ ((1 : ℚ) ≤ 0) := by
  constructor
  · with_unfolding_all decide
  · with_unfolding_all decide

/-- Claim C2 (amended): for `stbo` the recorded best fitness is non-increasing
across generations (greedy acceptance makes each individual fitness, hence the
population minimum, non-increasing); for `avoa` the claim fails — the code
assigns `best_fitness = reduce_min(fitness)` unconditionally rather than
updating a record only when the new minimum beats it, and the counterexample
shows the sequence increasing. -/
theorem claim2_theorem :
    ∀ (cfg : Stbo.Cfg) (env : Stbo.Env) (fit : Candidate → ℚ)
      (res : RunResult), 0 < cfg.population_size →
      Stbo.run cfg env fit = some res →
      ∀ k, k + 1 < res.bests.length →
        (res.bests.getD (k + 1) (0, 0)).2 ≤ (res.bests.getD k (0, 0)).2 := by
  intro cfg env fit res hpop h
  exact Stbo.run_bests_mono cfg env fit hpop res h

/-- Claim C2 (witness): the amended monotonicity on the concrete `stbo` run. -/
theorem claim2_witness :
    (resS.bests.getD 1 (0, 0)).2 ≤ (resS.bests.getD 0 (0, 0)).2 :=
  claim2_theorem cfgS envS fitS resS (by decide)
    (by with_unfolding_all decide) 0 (by with_unfolding_all decide)

/-- Claim C5 (counterexample): with the default `fitness_log_frequency = -1`
and `best_individual_save_frequency = -1`, neither algorithm makes any
run-end fitness-log call (with or without `force_flush`) nor any run-end
best-individual save: both run-end calls sit under `if frequency > 0` in the
source, so they are not unconditional. -/
theorem claim5_counterexample :
    ((Stbo.run cfgS envS fitS).map fun r => (r.endLog, r.endSave)) =
      some (false, false) ∧
    ((Avoa.run Oz cfgA envA fitA).map fun r => (r.endLog, r.endSave)) =
      some (false, false) ∧
    false ≠ true := by
  refine ⟨by with_unfolding_all decide, by with_unfolding_all decide,
    by decide⟩

/-- Claim C5 (amended): at run end, each algorithm makes the final
fitness-log call (the one passing `force_file_write=True`) exactly when
`fitness_log_frequency > 0`, and the final best-individual save exactly when
`best_individual_save_frequency > 0`; neither happens unconditionally. -/
theorem claim5_theorem :
    (∀ (O : Avoa.RealOps) (cfg : Avoa.Cfg) (env : Avoa.Env)
      (fit : Candidate → ℚ) (res : RunResult),
      Avoa.run O cfg env fit = some res →
      ((res.endLog = true ↔ 0 < cfg.fitness_log_frequency) ∧
       (res.endSave = true ↔ 0 < cfg.best_individual_save_frequency))) ∧
    (∀ (cfg : Stbo.Cfg) (env : Stbo.Env) (fit : Candidate → ℚ)
      (res : RunResult), Stbo.run cfg env fit = some res →
      ((res.endLog = true ↔ 0 < cfg.fitness_log_frequency) ∧
       (res.endSave = true ↔ 0 < cfg.best_individual_save_frequency))) := by
  constructor
  · intro O cfg env fit res h
    exact Avoa.arun_endFlags O cfg env fit res h
  · intro cfg env fit res h
    exact Stbo.run_endFlags cfg env fit res h

/-- Claim C5 (witness): the amended claim on the concrete `stbo` run. -/
theorem claim5_witness :
    (resS.endLog = true ↔ 0 < cfgS.fitness_log_frequency) ∧
    (resS.endSave = true ↔ 0 < cfgS.best_individual_save_frequency) :=
  claim5_theorem.2 cfgS envS fitS resS (by with_unfolding_all decide)

/-- Claim C8 (counterexample): `cfgBadA` has inverted bounds (`lb = 1 >
ub = -1`), probabilities outside `[0,1]` and a non-positive generation limit,
and `cfgBadS` has inverted bounds and a negative generation limit — yet both
runs return normally (no failure is raised before, or at any point of, the
generation loop), and the invalid `avoa` run even executes a full generation.
There is no configuration validation in either source file. -/
theorem claim8_counterexample :
    (Avoa.run Oz cfgBadA envA fitA).isSome = true ∧
    ((Avoa.run Oz cfgBadA envA fitA).map fun r => r.bests.length) = some 1 ∧
    (Stbo.run cfgBadS envS fitS).isSome = true := by
  refine ⟨by with_unfolding_all decide, by with_unfolding_all decide,
    by with_unfolding_all decide⟩

/-- Claim C8 (amended): no configuration validation happens before the
generation loop.  Runs with inverted bounds, probabilities outside `[0,1]`, or
a non-positive generation limit proceed normally whenever the population size
is positive and the shape list nonempty; the only pre-loop failure is the
spec-modelled population initializer rejecting a non-positive population size
(always reached by `avoa`, and by `stbo` when transfer learning is on). -/
theorem claim8_theorem :
    (∀ (O : Avoa.RealOps) (cfg : Avoa.Cfg) (env : Avoa.Env)
      (fit : Candidate → ℚ), 0 < cfg.population_size → cfg.shapes ≠ [] →
      (Avoa.run O cfg env fit).isSome = true) ∧
    (∀ (cfg : Stbo.Cfg) (env : Stbo.Env) (fit : Candidate → ℚ),
      0 < cfg.population_size → cfg.shapes ≠ [] →
      (Stbo.run cfg env fit).isSome = true) ∧
    (∀ (O : Avoa.RealOps) (cfg : Avoa.Cfg) (env : Avoa.Env)
      (fit : Candidate → ℚ), cfg.population_size ≤ 0 →
      Avoa.run O cfg env fit = none) ∧
    (∀ (cfg : Stbo.Cfg) (env : Stbo.Env) (fit : Candidate → ℚ),
      cfg.transfer_learning = true → cfg.population_size ≤ 0 →
      Stbo.run cfg env fit = none) := by
  refine ⟨?_, ?_, ?_, ?_⟩
  · intro O cfg env fit hpop hsh
    unfold Avoa.run Avoa.runFuel createPopulation
    rw [if_neg]
    · rfl
    · push_neg
      exact ⟨by omega, by simpa using hsh⟩
  · intro cfg env fit hpop hsh
    unfold Stbo.run Stbo.runFuel Stbo.eq2
    by_cases ht : cfg.transfer_learning
    · rw [if_pos ht]
      unfold createPopulation
      rw [if_neg]
      · rfl
      · push_neg
        exact ⟨by omega, by simpa using hsh⟩
    · rw [if_neg ht]
      rfl
  · intro O cfg env fit hpop
    unfold Avoa.run Avoa.runFuel createPopulation
    rw [if_pos (Or.inl hpop)]
    rfl
  · intro cfg env fit ht hpop
    unfold Stbo.run Stbo.runFuel Stbo.eq2
    rw [if_pos ht]
    unfold createPopulation
    rw [if_pos (Or.inl hpop)]
    rfl

/-- Claim C8 (witness): both invalid-but-positive-population configurations
run to completion. -/
theorem claim8_witness :
    (Avoa.run Oz cfgBadA envA fitQ).isSome = true ∧
    (Stbo.run cfgBadS envS fitQ).isSome = true :=
  ⟨claim8_theorem.1 Oz cfgBadA envA fitQ (by decide) (by decide),
   claim8_theorem.2.1 cfgBadS envS fitQ (by decide) (by decide)⟩

/-- Claim C7: after an accept-if-improved step, individual `i` keeps the
proposal exactly when the proposal's fitness strictly improved
(`FP[i] < F[i]`); all of the individual's array slots are replaced together
(the whole candidate switches at once), and the stored fitness of the kept
candidate is the minimum of the old and proposed fitness. -/
theorem claim7_theorem (fit : Candidate → ℚ) (n : ℕ) (X XP : Pop) (i : ℕ)
    (hi : i < n) (hL : XP.length = X.length) :
    ((evalFitness fit XP n).getD i 0 < (evalFitness fit X n).getD i 0 →
      candidateOf (Stbo.updateImproved fit n X XP).1 i = candidateOf XP i) ∧
    (¬ (evalFitness fit XP n).getD i 0 < (evalFitness fit X n).getD i 0 →
      candidateOf (Stbo.updateImproved fit n X XP).1 i = candidateOf X i) ∧
    (Stbo.updateImproved fit n X XP).2.1.getD i 0 =
      min ((evalFitness fit X n).getD i 0)
        ((evalFitness fit XP n).getD i 0) := by
  refine ⟨?_, ?_, ?_⟩
  · intro hc
    rw [Stbo.updateImproved_cand fit n X XP i hi hL, if_pos hc]
  · intro hc
    rw [Stbo.updateImproved_cand fit n X XP i hi hL, if_neg hc]
  · rw [Stbo.updateImproved_F_getD fit n X XP i hi]
    rcases lt_or_ge ((evalFitness fit XP n).getD i 0)
        ((evalFitness fit X n).getD i 0) with hc | hc
    · rw [if_pos hc, min_eq_right (le_of_lt hc)]
    · rw [if_neg (not_lt.mpr hc), min_eq_left hc]

/-- Claim C7 (witness): with current candidates of fitness `[1, 0]` and
proposals of fitness `[0, 25]`, individual 0's proposal is an improvement, so
every slot of individual 0 switches to the proposal and its stored fitness
becomes `min 1 0 = 0`. -/
theorem claim7_witness :
    (evalFitness fitS XP7w 2).getD 0 0 < (evalFitness fitS X7w 2).getD 0 0 ∧
    candidateOf (Stbo.updateImproved fitS 2 X7w XP7w).1 0 =
      candidateOf XP7w 0 ∧
    (Stbo.updateImproved fitS 2 X7w XP7w).2.1.getD 0 0 = 0 := by
  have h := claim7_theorem fitS 2 X7w XP7w 0 (by decide) (by decide)
  have hlt : (evalFitness fitS XP7w 2).getD 0 0 <
      (evalFitness fitS X7w 2).getD 0 0 := by with_unfolding_all decide
  refine ⟨hlt, h.1 hlt, ?_⟩
  rw [h.2.2]
  with_unfolding_all decide

/-- Claim C9 (counterexample): the concrete `stbo` run with
`generation_limit = 2` and a threshold that never stops it performs 19
fitness-evaluation passes, not `generation_limit + 1 = 3`: besides the initial
pass, every generation re-evaluates the population twice in each of the three
accept-if-improved steps. -/
theorem claim9_counterexample :
    ((Stbo.run cfgS envS fitS).map fun r => r.passes.length) = some 19 ∧
    (19 : ℕ) ≠ 2 + 1 := by
  refine ⟨by with_unfolding_all decide, by decide⟩

/-- Claim C9 (amended): when the fitness threshold can never stop the run,
`avoa` calls the fitness evaluator exactly `generation_limit + 1` times (once
per generation boundary, generation 0 included), while `stbo` calls it
`1 + 6*(generation_limit + 1)` times (one initial pass plus six per
generation, two in each of the three accept-if-improved steps); in both
algorithms the population keeps its size and per-slot shapes through the whole
run. -/
theorem claim9_theorem :
    (∀ (O : Avoa.RealOps) (cfg : Avoa.Cfg) (env : Avoa.Env)
      (fit : Candidate → ℚ) (res : RunResult),
      (∀ c : Candidate, ¬ (fit c < cfg.fitness_limit)) →
      Avoa.run O cfg env fit = some res →
      res.passes.length = (cfg.generation_limit + 1).toNat ∧
      WF cfg.shapes cfg.N res.pop) ∧
    (∀ (cfg : Stbo.Cfg) (env : Stbo.Env) (fit : Candidate → ℚ)
      (res : RunResult), 0 < cfg.population_size →
      (∀ c : Candidate, cfg.fitness_limit < fit c) →
      Stbo.run cfg env fit = some res →
      res.passes.length = 1 + 6 * (cfg.generation_limit + 1).toNat ∧
      WF cfg.shapes cfg.N res.pop) := by
  constructor
  · intro O cfg env fit res hstop h
    exact ⟨(Avoa.arun_counts O cfg env fit hstop res h).1,
      Avoa.arun_WF O cfg env fit res h⟩
  · intro cfg env fit res hpop hstop h
    exact ⟨(Stbo.run_counts cfg env fit hpop hstop res h).1,
      Stbo.run_WF cfg env fit res h⟩

/-- Claim C9 (witness): the amended counts and shape preservation on the two
concrete runs under the squared (threshold-proof) fitness. -/
theorem claim9_witness :
    (resA9.passes.length = (cfgA.generation_limit + 1).toNat ∧
      WF cfgA.shapes cfgA.N resA9.pop) ∧
    (resS.passes.length = 1 + 6 * (cfgS.generation_limit + 1).toNat ∧
      WF cfgS.shapes cfgS.N resS.pop) := by
  constructor
  · refine claim9_theorem.1 Oz cfgA envA fitQ resA9 ?_
      (by with_unfolding_all decide)
    intro c hc
    rw [show cfgA.fitness_limit = -1 from rfl] at hc
    unfold fitQ at hc
    nlinarith [sq_nonneg (elemv c 0 0)]
  · refine claim9_theorem.2 cfgS envS fitS resS (by decide) ?_
      (by with_unfolding_all decide)
    intro c
    rw [show cfgS.fitness_limit = -1 from rfl]
    unfold fitS
    nlinarith [sq_nonneg (elemv c 0 0)]

/-- Claim C10: both algorithms terminate — giving the generation loop any
extra fuel beyond `(generation_limit + 1)` iterations changes nothing — and
execute at most `generation_limit + 1` generations; the threshold check sits
once per generation before the updates, so every generation-boundary record
that is not the run's last satisfies the continue condition (`avoa` continues
while not `best < fitness_limit`, `stbo` while `best > fitness_limit`). -/
theorem claim10_theorem :
    (∀ (O : Avoa.RealOps) (cfg : Avoa.Cfg) (env : Avoa.Env)
      (fit : Candidate → ℚ),
      (∀ extra, Avoa.runFuel O cfg env fit
        ((cfg.generation_limit + 1).toNat + extra) =
        Avoa.run O cfg env fit) ∧
      (∀ res, Avoa.run O cfg env fit = some res →
        res.bests.length ≤ (cfg.generation_limit + 1).toNat ∧
        ∀ k, k + 1 < res.bests.length →
          ¬ (res.bests.getD k (0, 0)).2 < cfg.fitness_limit)) ∧
    (∀ (cfg : Stbo.Cfg) (env : Stbo.Env) (fit : Candidate → ℚ),
      (∀ extra, Stbo.runFuel cfg env fit
        ((cfg.generation_limit + 1).toNat + extra) =
        Stbo.run cfg env fit) ∧
      (∀ res, Stbo.run cfg env fit = some res →
        res.bests.length ≤ (cfg.generation_limit + 1).toNat ∧
        ∀ k, k + 1 < res.bests.length →
          cfg.fitness_limit < (res.bests.getD k (0, 0)).2)) := by
  constructor
  · intro O cfg env fit
    refine ⟨fun extra => Avoa.arun_fuel_inv O cfg env fit extra, ?_⟩
    intro res h
    exact ⟨Avoa.arun_bests_bound O cfg env fit res h,
      Avoa.arun_stop_prop O cfg env fit res h⟩
  · intro cfg env fit
    refine ⟨fun extra => Stbo.run_fuel_inv cfg env fit extra, ?_⟩
    intro res h
    exact ⟨Stbo.run_bests_bound cfg env fit res h,
      Stbo.run_stop_prop cfg env fit res h⟩

/-- Claim C10 (witness): instantiated on the two concrete runs. -/
theorem claim10_witness :
    Avoa.runFuel Oz cfgA envA fitA ((cfgA.generation_limit + 1).toNat + 1) =
      Avoa.run Oz cfgA envA fitA ∧
    resA.bests.length ≤ (cfgA.generation_limit + 1).toNat ∧
    ¬ (resA.bests.getD 0 (0, 0)).2 < cfgA.fitness_limit ∧
    resS.bests.length ≤ (cfgS.generation_limit + 1).toNat ∧
    cfgS.fitness_limit < (resS.bests.getD 0 (0, 0)).2 := by
  have hA := (claim10_theorem.1 Oz cfgA envA fitA).2 resA
    (by with_unfolding_all decide)
  have hS := (claim10_theorem.2 cfgS envS fitS).2 resS
    (by with_unfolding_all decide)
  exact ⟨(claim10_theorem.1 Oz cfgA envA fitA).1 1, hA.1,
    hA.2 0 (by with_unfolding_all decide), hS.1,
    hS.2 0 (by with_unfolding_all decide)⟩

/-- Claim C3 (counterexample): take two scalar individuals with values `3` and
`4`, instructors `SI = [1, 0]`, generation 0 of `T = 1`, and the identity
shuffle.  The claim predicts, for EVERY individual `i`, `ms = round(1 + 0) = 1`
overwritten positions out of `m = 1` (that candidate's own flattened length) —
i.e. proposal `[[4], [3]]`, each individual fully overwritten by its
instructor.  The code instead computes `m = tf.size(x) = 2` over the whole
population slot tensor, draws `ms = 1` position from the 2-element flattened
tensor, and produces `[[4], [4]]`: individual 1 keeps its own value `4` and
receives 0 overwrites instead of the claimed 1. -/
theorem claim3_counterexample :
    Stbo.eq78Slot 0 1 [0, 1] [1, 0] [[3], [4]] = [[4], [4]] ∧
    ¬ (Stbo.eq78Slot 0 1 [0, 1] [1, 0] [[3], [4]]).getD 1 [] = [(3 : ℚ)] := by
  refine ⟨by with_unfolding_all decide, by with_unfolding_all decide⟩

/-- Claim C3 (amended): in STBO's imitation phase, per weight slot (not per
individual), `ms = round(1 + gen/(2T)·m)` flat positions are chosen without
replacement from the WHOLE population slot tensor, where `m` is that tensor's
total element count (population size × per-candidate slot size); the chosen
positions of the slot-flattened proposal take the values of the flattened
instructor gather `X[SI]`, every other position keeps the current value, and
the slot keeps its shape.  (`round` is `tf.round`, half to even.) -/
theorem claim3_theorem (gen T : ℚ) (perm SI : List ℕ) (slot : List Slot)
    (ms : ℕ) (SDi : List ℕ) (instr : List ℚ)
    (hperm : perm.Perm (List.range slot.flatten.length))
    (hms : ms =
      (roundEven (1 + gen / (2 * T) * (slot.flatten.length : ℚ))).toNat)
    (hSDi : SDi = perm.take ms)
    (hinstr : instr = ((List.range slot.length).map fun i =>
      slot.getD (SI.getD i 0) []).flatten) :
    (Stbo.eq78Slot gen T perm SI slot).map List.length =
      slot.map List.length ∧
    SDi.Nodup ∧
    SDi.length = min ms slot.flatten.length ∧
    ∀ j, j < slot.flatten.length →
      (Stbo.eq78Slot gen T perm SI slot).flatten.getD j 0 =
        if j ∈ SDi then instr.getD j 0 else slot.flatten.getD j 0 := by
  subst hms
  subst hSDi
  subst hinstr
  refine ⟨Stbo.eq78Slot_map_length gen T perm SI slot, ?_, ?_, ?_⟩
  · exact List.Nodup.sublist (List.take_sublist _ perm)
      (hperm.nodup_iff.mpr (List.nodup_range _))
  · rw [List.length_take, hperm.length_eq, List.length_range]
  · intro j hj
    simp only [Stbo.eq78Slot]
    rw [chunkLike_flatten slot _ (by rw [length_scatterUpd])]
    exact getD_scatterUpd _ _ _ j hj

/-- Claim C3 (witness): the amended semantics on the same concrete slot with
the reversed shuffle `[1, 0]`: one position is selected (`SDi = [1]`), it takes
the instructor value `3`, and the slot shape is preserved. -/
theorem claim3_witness :
    (Stbo.eq78Slot 0 1 [1, 0] [0, 0] [[3], [4]]).map List.length = [1, 1] ∧
    (Stbo.eq78Slot 0 1 [1, 0] [0, 0] [[3], [4]]).flatten.getD 1 0 = 3 := by
  have h := claim3_theorem 0 1 [1, 0] [0, 0] [[3], [4]] 1 [1] [3, 3]
    (by with_unfolding_all decide) (by with_unfolding_all decide)
    (by with_unfolding_all decide) (by with_unfolding_all decide)
  refine ⟨by rw [h.1]; with_unfolding_all decide, ?_⟩
  have h4 := h.2.2.2 1 (by decide)
  rw [h4]
  with_unfolding_all decide

/-- Claim C4: the two division hazards are in the code, unguarded.  (i) In
STBO's practice phase, eq. 10 divides the step by the raw generation counter:
`eq10v lb ub r gen x = clip(x + (lb + r*(ub-lb))/gen)` literally divides by
`gen`, and the run's first executed generation has index 0 — the concrete run
records generation 0 as its first boundary.  (ii) In AVOA's eq. 15 the
denominator `bv - p_i²` is computed with no guard, and a reachable state hits
zero: starting from the population `[[1/4], [-1/2]]` actually produced by the
initializer, with fitness minimized at `1/4`, the best vulture is `1/4`; the
generation-0 sweep sends individual 1 (value `-1/2`, untouched by individual
0's eq. 16 update) into the eq. 16 branch (`|F| = 0 < 1/2`, `u3 = 0 ≤ P3`),
where eq. 15's denominator is `1/4 - (-1/2)² = 0`. -/
theorem claim4_theorem :
    (∀ lb ub r x : ℚ, Stbo.eq10v lb ub r 0 x =
      clipQ lb ub (x + (lb + r * (ub - lb)) / 0)) ∧
    ((Stbo.run cfgS envS fitS).map fun res =>
      res.bests.head?.map Prod.fst) = some (some 0) ∧
    createPopulation cfgC4.shapes cfgC4.population_size cfgC4.lb cfgC4.ub
      cfgC4.transfer_learning envC4.initU envC4.perturb envC4.target =
      some X0c4 ∧
    (¬ 1 ≤ |Avoa.eq4F Oz (envC4.draws 0 1) 0 cfgC4.Tq|) ∧
    (¬ 1 / 2 ≤ |Avoa.eq4F Oz (envC4.draws 0 1) 0 cfgC4.Tq|) ∧
    ((envC4.draws 0 1).u3 ≤ cfgC4.P3) ∧
    Avoa.eq15den (elemv (bvC4.map Prod.fst) 0 0)
      (elemv (candidateOf X1c4 1) 0 0) = 0 := by
  refine ⟨fun lb ub r x => rfl, by with_unfolding_all decide,
    by with_unfolding_all decide, by with_unfolding_all decide,
    by with_unfolding_all decide, by with_unfolding_all decide,
    by with_unfolding_all decide⟩

/-- Claim C6: the AVOA per-individual update follows exactly the claimed
decision procedure — branch on `|F| ≥ 1`, then `|F| ≥ 1/2`, with the
equation inside each branch chosen by comparing the respective probability
against a fresh uniform draw — and each branch computes exactly the claimed
formula elementwise (the buffers `D`, `S0/S1`, `A0/A1`, `Levy` of the source
are inlined into the closed-form right-hand sides). -/
theorem claim6_theorem (O : Avoa.RealOps) (cfg : Avoa.Cfg) (d : Avoa.Draws)
    (gen : ℕ) (bv : List (Slot × Slot)) (X : Pop) (i : ℕ)
    (F : ℚ) (R p q : Candidate)
    (hset : ∀ s, s < X.length → i < (X.getD s []).length)
    (hF : F = Avoa.eq4F O d (gen : ℚ) cfg.Tq)
    (hR : R = Avoa.eq1R bv d.sel)
    (hp : p = candidateOf X i)
    (hq : q = candidateOf (Avoa.indivStep O cfg d gen bv X i) i) :
    (1 ≤ |F| → d.u1 ≤ cfg.P1 →
      q = mapCand p fun s e =>
        elemv R s e - |2 * d.x7 * elemv R s e - elemv p s e| * F) ∧
    (1 ≤ |F| → ¬ d.u1 ≤ cfg.P1 →
      q = mapCand p fun s e =>
        elemv R s e - F + d.rand2 * ((cfg.ub - cfg.lb) * d.rand3 + cfg.lb)) ∧
    (¬ 1 ≤ |F| → 1 / 2 ≤ |F| → d.u2 ≤ cfg.P2 →
      q = mapCand p fun s e =>
        |2 * d.x7 * elemv R s e - elemv p s e| * (F + d.rand4) -
          (elemv R s e - elemv p s e)) ∧
    (¬ 1 ≤ |F| → 1 / 2 ≤ |F| → ¬ d.u2 ≤ cfg.P2 →
      q = mapCand p fun s e =>
        elemv R s e -
          (elemv R s e * ((d.rand5 * elemv p s e) / O.twoPi) *
              O.cosq (elemv p s e) +
           elemv R s e * ((d.rand6 * elemv p s e) / O.twoPi) *
              O.sinq (elemv p s e))) ∧
    (¬ 1 ≤ |F| → ¬ 1 / 2 ≤ |F| → d.u3 ≤ cfg.P3 →
      q = mapCand p fun s e =>
        ((elemv (bv.map Prod.fst) s e -
            ((elemv (bv.map Prod.fst) s e * elemv p s e) /
              (elemv (bv.map Prod.fst) s e - elemv p s e ^ 2)) * F) +
         (elemv (bv.map Prod.snd) s e -
            ((elemv (bv.map Prod.snd) s e * elemv p s e) /
              (elemv (bv.map Prod.snd) s e - elemv p s e ^ 2)) * F)) / 2) ∧
    (¬ 1 ≤ |F| → ¬ 1 / 2 ≤ |F| → ¬ d.u3 ≤ cfg.P3 →
      q = mapCand p fun s e =>
        elemv R s e - |elemv R s e - elemv p s e| * F *
          (1 / 100 * ((d.levyU s e * O.sigma) /
            O.powInvBeta |d.levyV s e|))) := by
  subst hF
  subst hR
  subst hp
  subst hq
  have hkey : ∀ f : ℕ → ℕ → ℚ,
      candidateOf (setCand X i (mapCand (candidateOf X i) f)) i =
      mapCand (candidateOf X i) f := by
    intro f
    refine candidateOf_setCand X i _ ?_ hset
    rw [length_mapCand, length_candidateOf]
  refine ⟨?_, ?_, ?_, ?_, ?_, ?_⟩
  · intro h1 h2
    have hstep : Avoa.indivStep O cfg d gen bv X i =
        setCand X i (Avoa.eq6c (Avoa.eq4F O d (gen : ℚ) cfg.Tq) d.x7
          (Avoa.eq1R bv d.sel) (candidateOf X i)) := by
      simp only [Avoa.indivStep]
      rw [if_pos h1, if_pos h2]
    rw [hstep]
    have hc : Avoa.eq6c (Avoa.eq4F O d (gen : ℚ) cfg.Tq) d.x7
        (Avoa.eq1R bv d.sel) (candidateOf X i) =
        mapCand (candidateOf X i) fun s e =>
          elemv (Avoa.eq1R bv d.sel) s e -
            |2 * d.x7 * elemv (Avoa.eq1R bv d.sel) s e -
              elemv (candidateOf X i) s e| *
            Avoa.eq4F O d (gen : ℚ) cfg.Tq := by
      simp only [Avoa.eq6c]
      refine mapCand_congr _ _ _ ?_
      intro s hs e he
      simp only [Avoa.eq7D]
      rw [elemv_mapCand _ _ s e hs he]
    rw [hc]
    exact hkey _
  · intro h1 h2
    have hstep : Avoa.indivStep O cfg d gen bv X i =
        setCand X i (Avoa.eq8c (Avoa.eq4F O d (gen : ℚ) cfg.Tq) d.rand2
          d.rand3 cfg.lb cfg.ub (Avoa.eq1R bv d.sel) (candidateOf X i)) := by
      simp only [Avoa.indivStep]
      rw [if_pos h1, if_neg h2]
    rw [hstep]
    exact hkey _
  · intro h1 h2 h3
    have hstep : Avoa.indivStep O cfg d gen bv X i =
        setCand X i (Avoa.eq10c (Avoa.eq4F O d (gen : ℚ) cfg.Tq) d.x7
          d.rand4 (Avoa.eq1R bv d.sel) (candidateOf X i)) := by
      simp only [Avoa.indivStep]
      rw [if_neg h1, if_pos h2, if_pos h3]
    rw [hstep]
    have hc : Avoa.eq10c (Avoa.eq4F O d (gen : ℚ) cfg.Tq) d.x7 d.rand4
        (Avoa.eq1R bv d.sel) (candidateOf X i) =
        mapCand (candidateOf X i) fun s e =>
          |2 * d.x7 * elemv (Avoa.eq1R bv d.sel) s e -
            elemv (candidateOf X i) s e| *
            (Avoa.eq4F O d (gen : ℚ) cfg.Tq + d.rand4) -
          (elemv (Avoa.eq1R bv d.sel) s e - elemv (candidateOf X i) s e) := by
      simp only [Avoa.eq10c]
      refine mapCand_congr _ _ _ ?_
      intro s hs e he
      simp only [Avoa.eq7D]
      rw [elemv_mapCand _ _ s e hs he]
    rw [hc]
    exact hkey _
  · intro h1 h2 h3
    have hstep : Avoa.indivStep O cfg d gen bv X i =
        setCand X i (Avoa.eq13c O d.rand5 d.rand6 (Avoa.eq1R bv d.sel)
          (candidateOf X i)) := by
      simp only [Avoa.indivStep]
      rw [if_neg h1, if_pos h2, if_neg h3]
    rw [hstep]
    have hc : Avoa.eq13c O d.rand5 d.rand6 (Avoa.eq1R bv d.sel)
        (candidateOf X i) =
        mapCand (candidateOf X i) fun s e =>
          elemv (Avoa.eq1R bv d.sel) s e -
            (elemv (Avoa.eq1R bv d.sel) s e *
                ((d.rand5 * elemv (candidateOf X i) s e) / O.twoPi) *
                O.cosq (elemv (candidateOf X i) s e) +
             elemv (Avoa.eq1R bv d.sel) s e *
                ((d.rand6 * elemv (candidateOf X i) s e) / O.twoPi) *
                O.sinq (elemv (candidateOf X i) s e)) := by
      simp only [Avoa.eq13c, Avoa.eq12S]
      refine mapCand_congr _ _ _ ?_
      intro s hs e he
      rw [elemv_mapCand _ _ s e hs he, elemv_mapCand _ _ s e hs he]
    rw [hc]
    exact hkey _
  · intro h1 h2 h3
    have hstep : Avoa.indivStep O cfg d gen bv X i =
        setCand X i (Avoa.eq16c (Avoa.eq4F O d (gen : ℚ) cfg.Tq)
          (bv.map Prod.fst) (bv.map Prod.snd) (candidateOf X i)) := by
      simp only [Avoa.indivStep]
      rw [if_neg h1, if_neg h2, if_pos h3]
    rw [hstep]
    have hc : Avoa.eq16c (Avoa.eq4F O d (gen : ℚ) cfg.Tq)
        (bv.map Prod.fst) (bv.map Prod.snd) (candidateOf X i) =
        mapCand (candidateOf X i) fun s e =>
          ((elemv (bv.map Prod.fst) s e -
              ((elemv (bv.map Prod.fst) s e * elemv (candidateOf X i) s e) /
                (elemv (bv.map Prod.fst) s e -
                  elemv (candidateOf X i) s e ^ 2)) *
              Avoa.eq4F O d (gen : ℚ) cfg.Tq) +
           (elemv (bv.map Prod.snd) s e -
              ((elemv (bv.map Prod.snd) s e * elemv (candidateOf X i) s e) /
                (elemv (bv.map Prod.snd) s e -
                  elemv (candidateOf X i) s e ^ 2)) *
              Avoa.eq4F O d (gen : ℚ) cfg.Tq)) / 2 := by
      simp only [Avoa.eq16c, Avoa.eq15A, Avoa.eq15den]
      refine mapCand_congr _ _ _ ?_
      intro s hs e he
      rw [elemv_mapCand _ _ s e hs he, elemv_mapCand _ _ s e hs he]
    rw [hc]
    exact hkey _
  · intro h1 h2 h3
    have hstep : Avoa.indivStep O cfg d gen bv X i =
        setCand X i (Avoa.eq17c O (Avoa.eq4F O d (gen : ℚ) cfg.Tq) d
          (Avoa.eq1R bv d.sel) (candidateOf X i)) := by
      simp only [Avoa.indivStep]
      rw [if_neg h1, if_neg h2, if_neg h3]
    rw [hstep]
    have hc : Avoa.eq17c O (Avoa.eq4F O d (gen : ℚ) cfg.Tq) d
        (Avoa.eq1R bv d.sel) (candidateOf X i) =
        mapCand (candidateOf X i) fun s e =>
          elemv (Avoa.eq1R bv d.sel) s e -
            |elemv (Avoa.eq1R bv d.sel) s e - elemv (candidateOf X i) s e| *
            Avoa.eq4F O d (gen : ℚ) cfg.Tq *
            (1 / 100 * ((d.levyU s e * O.sigma) /
              O.powInvBeta |d.levyV s e|)) := by
      simp only [Avoa.eq17c, Avoa.eq18Levy]
      refine mapCand_congr _ _ _ ?_
      intro s hs e he
      rw [elemv_mapCand _ _ s e hs he]
    rw [hc]
    exact hkey _

/-- Claim C6 (witness): on one concrete individual, `F = -1` with `u1 = 0 ≤
P1` takes eq. 6, and the written-back candidate equals the closed-form value
`R - |2·x7·R - p|·F = 5 - |10 - 0|·(-1) = 15`. -/
theorem claim6_witness :
    1 ≤ |Avoa.eq4F Oz d6w 0 cfgA.Tq| ∧
    d6w.u1 ≤ cfgA.P1 ∧
    candidateOf (Avoa.indivStep Oz cfgA d6w 0 bv6w X6w 0) 0 = [[15]] := by
  have h1 : 1 ≤ |Avoa.eq4F Oz d6w 0 cfgA.Tq| := by with_unfolding_all decide
  have h2 : d6w.u1 ≤ cfgA.P1 := by with_unfolding_all decide
  have h := (claim6_theorem Oz cfgA d6w 0 bv6w X6w 0
    (Avoa.eq4F Oz d6w 0 cfgA.Tq) (Avoa.eq1R bv6w d6w.sel)
    (candidateOf X6w 0)
    (candidateOf (Avoa.indivStep Oz cfgA d6w 0 bv6w X6w 0) 0)
    (by
      intro s hs
      have hs1 : s < 1 := hs
      have hs0 : s = 0 := by omega
      subst hs0
      decide)
    rfl rfl rfl rfl).1 h1 h2
  refine ⟨h1, h2, ?_⟩
  rw [h]
  with_unfolding_all decide

end Metaopts
